import Mathlib

/-!
# Verification of the minetest reliable-ordered datagram transport core

Shallow embedding of the receive-side transport code:

* `src/network/reliable.cpp` — 16→64-bit sequence extrapolation and the
  reliable reorder buffer (`compute_full_seqnum`,
  `ReliableReceivedPacketBuffer::insert` / `flush`);
* `src/network/packet.cpp` — the wire parser (`ReceivedPacket::parse`);
* `src/network/split.cpp` — split (fragment) reassembly
  (`IncomingSplitPacket`, `IncomingSplitBuffer`);
* `src/util/timeout_queue.h` — `TimeoutQueue` / `TimeoutHandle`;
* `src/util/binheap.h` — the indexed binary min-heap (`BinHeap`).

Machine integers are modelled as `Nat` with explicit reduction modulo
`2^16` / `2^64` at the points where the C++ performs fixed-width
arithmetic.
-/

namespace Minetest

/-! ## Constants (src/network/reliable.h, src/network/split.h) -/

def MAX_RELIABLE_WINDOW_SIZE : Nat := 0x8000

def SEQNUM_INITIAL : Nat := 65500

def SPLIT_TIMEOUT_MS : Nat := 30

def U16_MOD : Nat := 65536

def U64_MOD : Nat := 18446744073709551616

/-! ## Sequence number extrapolation (src/network/reliable.cpp, lines 5-13)

```cpp
inline u64 compute_full_seqnum(u64 base, u16 seqnum) {
    u16 base_mod = base & 0xFFFF;
    u16 forward_diff = seqnum - base_mod;
    u16 backward_diff = base_mod - seqnum;
    if (forward_diff <= 32768 || backward_diff > base) {
        return base + forward_diff;
    }
    return base - backward_diff;
}
```

`u16` subtraction `x - y` is `(x + 2^16 - y) % 2^16` on `Nat`s below `2^16`;
the `u16` parameter is reduced mod `2^16` on entry; the `u64` addition is
reduced mod `2^64` (the `u64` subtraction cannot underflow in the branch
where it occurs, since there `backward_diff ≤ base`). -/

def compute_full_seqnum (base seqnum : Nat) : Nat :=
  let s := seqnum % U16_MOD
  let base_mod := base % U16_MOD
  let forward_diff := (s + U16_MOD - base_mod) % U16_MOD
  let backward_diff := (base_mod + U16_MOD - s) % U16_MOD
  if forward_diff ≤ 32768 ∨ backward_diff > base then
    (base + forward_diff) % U64_MOD
  else
    base - backward_diff

/-- C2 (counterexample): the claim's third identity fails at `k = 32768`.
With `base = 32768` and wire seqnum `(base - 32768) % 2^16 = 0`, the code
computes `forward_diff = 32768 ≤ 32768` and takes the forward branch,
returning `base + 32768 = 65536` instead of the claimed `base - 32768 = 0`. -/
theorem compute_full_seqnum_k32768_cex :
    compute_full_seqnum 32768 ((32768 - 32768) % 65536) = 65536 ∧
    (32768 : Nat) - 32768 ≠ 65536 := by
  constructor
  · decide
  · decide

/-- C2 (amended): for every `base < 2^40`, `compute_full_seqnum` satisfies
`compute_full_seqnum base (base % 2^16) = base`;
`compute_full_seqnum base ((base + k) % 2^16) = base + k` for `k ∈ [0, 32768]`;
and `compute_full_seqnum base ((base - k) % 2^16) = base - k` for
`k ∈ [1, 32767]` whenever `base ≥ k` (at `k = 32768` the tie is resolved
forward, so the backward identity stops at `32767`). -/
theorem compute_full_seqnum_extrapolates (base : Nat) (hbase : base < 2 ^ 40) :
    compute_full_seqnum base (base % 65536) = base ∧
    (∀ k, k ≤ 32768 → compute_full_seqnum base ((base + k) % 65536) = base + k) ∧
    (∀ k, 1 ≤ k → k ≤ 32767 → k ≤ base →
      compute_full_seqnum base ((base - k) % 65536) = base - k) := by
  have hb : base < 1099511627776 := by simpa using hbase
  refine ⟨?_, ?_, ?_⟩
  · show compute_full_seqnum base (base % 65536) = base
    simp only [compute_full_seqnum, U16_MOD, U64_MOD]
    split <;> omega
  · intro k hk
    simp only [compute_full_seqnum, U16_MOD, U64_MOD]
    split <;> omega
  · intro k hk1 hk2 hkb
    simp only [compute_full_seqnum, U16_MOD, U64_MOD]
    split <;> omega

/-- Witness for `compute_full_seqnum_extrapolates` at `base = 65500`. -/
theorem compute_full_seqnum_extrapolates_witness :
    compute_full_seqnum 65500 (65500 % 65536) = 65500 ∧
    compute_full_seqnum 65500 ((65500 + 40) % 65536) = 65540 ∧
    compute_full_seqnum 65500 ((65500 - 3) % 65536) = 65497 := by
  obtain ⟨h1, h2, h3⟩ := compute_full_seqnum_extrapolates 65500 (by norm_num)
  exact ⟨h1, h2 40 (by norm_num), h3 3 (by norm_num) (by norm_num) (by norm_num)⟩

/-! ## Reliable reorder buffer (src/network/reliable.cpp, lines 30-82)

`ReliableReceivedPacketBuffer` holds `next_incoming_seqnum` (a `u64`,
initially `SEQNUM_INITIAL`) and `m_queue`, a `std::priority_queue` ordered
by `OrderByFullSeqNum` so that `top()` is a packet with the least
`full_seqnum`.  For the properties at stake a queued packet is its
`full_seqnum`, so the queue is a multiset of `Nat`s with minimum
extraction.  The two callbacks are modelled as follows: `sendAck` calls
are counted, and `processPacket` is an oracle `proc : Nat → Bool` giving
the continue/stop result of processing the packet with that
`full_seqnum` (each full seqnum is delivered at most once per run, so an
oracle keyed on the seqnum is fully general).  `insert` returns the new
state, the number of `sendAck` calls, and the packets passed to
`processPacket`, in order. -/

structure RBuf where
  next_incoming_seqnum : Nat
  pending : List Nat
  deriving Repr, DecidableEq

/-- Minimum extraction from `m_queue` (`top()` followed by `pop()`):
returns a minimal element and the rest of the queue. -/
def popMin : List Nat → Option (Nat × List Nat)
  | [] => none
  | a :: rest =>
    match popMin rest with
    | none => some (a, [])
    | some (m, rest2) => if a ≤ m then some (a, rest) else some (m, a :: rest2)

/-- The drain loop of `ReliableReceivedPacketBuffer::flush` (lines 65-82).
Each iteration of the C++ `while` loop pops one queue element, so `fuel`
(instantiated with the queue length by `flush`) bounds the iteration count
and makes the recursion structural; it is never exhausted.
Loop body: while the queue's least `full_seqnum` is `≤ next`, pop it;
a strictly smaller seqnum is a duplicate and is discarded, an equal one is
delivered (incrementing `next` first); a `false` from `processPacket`
aborts the loop ("connection closed"). -/
def flushAux (proc : Nat → Bool) : Nat → Nat → List Nat → Nat × List Nat × List Nat
  | 0, next, pending => (next, pending, [])
  | fuel + 1, next, pending =>
    match popMin pending with
    | none => (next, pending, [])
    | some (m, rest) =>
      if m ≤ next then
        if m < next then
          flushAux proc fuel next rest
        else
          if proc m then
            let r := flushAux proc fuel (next + 1) rest
            (r.1, r.2.1, m :: r.2.2)
          else
            (next + 1, rest, [m])
      else (next, pending, [])

/-- `ReliableReceivedPacketBuffer::flush`: returns the new
`next_incoming_seqnum`, the remaining queue, and the delivered packets. -/
def flush (proc : Nat → Bool) (next : Nat) (pending : List Nat) :
    Nat × List Nat × List Nat :=
  flushAux proc pending.length next pending

/-- One call of `ReliableReceivedPacketBuffer::insert` (lines 30-63), with
the packet's `full_seqnum` already computed.  Returns
`(state', sendAck count, packets delivered to processPacket)`. -/
def stepFull (proc : Nat → Bool) (st : RBuf) (full : Nat) : RBuf × Nat × List Nat :=
  if full > st.next_incoming_seqnum + MAX_RELIABLE_WINDOW_SIZE then
    -- Too far in the future, discard without sending an ack.
    (st, 0, [])
  else if full < st.next_incoming_seqnum then
    -- Old packet. Don't process again. (An ACK was sent above.)
    (st, 1, [])
  else if full = st.next_incoming_seqnum then
    if proc full then
      let r := flush proc (st.next_incoming_seqnum + 1) st.pending
      (⟨r.1, r.2.1⟩, 1, full :: r.2.2)
    else
      (⟨st.next_incoming_seqnum + 1, st.pending⟩, 1, [full])
  else
    (⟨st.next_incoming_seqnum, full :: st.pending⟩, 1, [])

/-- `ReliableReceivedPacketBuffer::insert` on a wire (16-bit) seqnum:
line 32 computes `full_seqnum` from the current `next_incoming_seqnum`. -/
def insert (proc : Nat → Bool) (st : RBuf) (seqnum : Nat) : RBuf × Nat × List Nat :=
  stepFull proc st (compute_full_seqnum st.next_incoming_seqnum seqnum)

/-- Run a sequence of `insert` calls, concatenating the deliveries. -/
def run (proc : Nat → Bool) (st : RBuf) : List Nat → RBuf × List Nat
  | [] => (st, [])
  | s :: rest =>
    let r := insert proc st s
    let r2 := run proc r.1 rest
    (r2.1, r.2.2 ++ r2.2)

/-- Run a sequence of `stepFull` calls on already-computed full seqnums. -/
def runFull (proc : Nat → Bool) (st : RBuf) : List Nat → RBuf × List Nat
  | [] => (st, [])
  | f :: rest =>
    let r := stepFull proc st f
    let r2 := runFull proc r.1 rest
    (r2.1, r.2.2 ++ r2.2)

/-- The `full_seqnum`s that a run of `insert` calls computes (line 32),
one per arrival, in order. -/
def fullTrace (proc : Nat → Bool) (st : RBuf) : List Nat → List Nat
  | [] => []
  | s :: rest =>
    let f := compute_full_seqnum st.next_incoming_seqnum s
    f :: fullTrace proc (stepFull proc st f).1 rest

theorem popMin_eq_none {l : List Nat} : popMin l = none ↔ l = [] := by
  cases l with
  | nil => simp [popMin]
  | cons a rest =>
    simp only [popMin]
    cases popMin rest with
    | none => simp
    | some p => rcases p with ⟨m, rest2⟩; by_cases h : a ≤ m <;> simp [h]

theorem popMin_perm {l : List Nat} {m : Nat} {rest : List Nat}
    (h : popMin l = some (m, rest)) : l.Perm (m :: rest) := by
  induction l generalizing m rest with
  | nil => simp [popMin] at h
  | cons a tl ih =>
    simp only [popMin] at h
    cases htl : popMin tl with
    | none =>
      rw [htl] at h
      rcases popMin_eq_none.mp htl with rfl
      simp at h
      simp [h.1, h.2]
    | some p =>
      rcases p with ⟨m', rest2⟩
      rw [htl] at h
      by_cases hle : a ≤ m'
      · simp [hle] at h
        rcases h with ⟨rfl, rfl⟩
        exact List.Perm.refl _
      · simp [hle] at h
        rcases h with ⟨rfl, rfl⟩
        exact ((ih htl).cons a).trans (List.Perm.swap m' a rest2)

theorem popMin_length {l : List Nat} {m : Nat} {rest : List Nat}
    (h : popMin l = some (m, rest)) : rest.length + 1 = l.length :=
  ((popMin_perm h).length_eq).symm

theorem popMin_mem {l : List Nat} {m : Nat} {rest : List Nat}
    (h : popMin l = some (m, rest)) : ∀ x, x ∈ l ↔ x = m ∨ x ∈ rest := by
  intro x
  rw [(popMin_perm h).mem_iff]
  simp

theorem popMin_min {l : List Nat} {m : Nat} {rest : List Nat}
    (h : popMin l = some (m, rest)) : ∀ x ∈ l, m ≤ x := by
  induction l generalizing m rest with
  | nil => simp [popMin] at h
  | cons a tl ih =>
    simp only [popMin] at h
    cases htl : popMin tl with
    | none =>
      rw [htl] at h
      simp at h
      rcases popMin_eq_none.mp htl with rfl
      intro x hx
      simp at hx
      simp [hx, h.1]
    | some p =>
      rcases p with ⟨m', rest2⟩
      rw [htl] at h
      by_cases hle : a ≤ m'
      · simp [hle] at h
        rcases h with ⟨rfl, rfl⟩
        intro x hx
        rcases List.mem_cons.mp hx with rfl | hx
        · exact le_refl _
        · exact le_trans hle (ih htl x hx)
      · simp [hle] at h
        rcases h with ⟨rfl, rfl⟩
        intro x hx
        rcases List.mem_cons.mp hx with rfl | hx
        · omega
        · exact ih htl x hx

/-- `[a, a+1, …, a+k]` splits off its head. -/
theorem range_map_consec (a k : Nat) :
    (List.range (k + 1)).map (a + ·) = a :: (List.range k).map (a + 1 + ·) := by
  rw [List.range_succ_eq_map]
  simp only [List.map_cons, List.map_map, Nat.add_zero]
  have hf : ((a + ·) ∘ Nat.succ) = (a + 1 + ·) := funext fun i => by
    simp [Function.comp]; omega
  rw [hf]

/-- Concatenating two adjacent consecutive blocks. -/
theorem range_map_append (a b c : Nat) (hab : a ≤ b) (hbc : b ≤ c) :
    (List.range (b - a)).map (a + ·) ++ (List.range (c - b)).map (b + ·) =
    (List.range (c - a)).map (a + ·) := by
  have h : c - a = (b - a) + (c - b) := by omega
  rw [h, List.range_add, List.map_append, List.map_map]
  have hf : ((a + ·) ∘ ((b - a) + ·)) = (b + ·) := funext fun i => by
    simp [Function.comp]; omega
  rw [hf]

/-- Behaviour of the flush loop, for an arbitrary `processPacket` oracle:
`next` never decreases, the delivered packets are exactly
`next, next+1, …, next'-1` in order, the remaining queue is a sub-multiset
of the original, and if `next` advanced then the last delivered seqnum was
a queue element. -/
theorem flushAux_spec (proc : Nat → Bool) :
    ∀ (fuel : Nat) (pending : List Nat) (next : Nat),
      pending.length ≤ fuel →
      next ≤ (flushAux proc fuel next pending).1 ∧
      (flushAux proc fuel next pending).2.2 =
        (List.range ((flushAux proc fuel next pending).1 - next)).map (next + ·) ∧
      (∀ x ∈ (flushAux proc fuel next pending).2.1, x ∈ pending) ∧
      ((flushAux proc fuel next pending).1 = next ∨
        (flushAux proc fuel next pending).1 - 1 ∈ pending) := by
  intro fuel
  induction fuel with
  | zero =>
    intro pending next _
    simp [flushAux]
  | succ fuel ih =>
    intro pending next hlen
    cases hpop : popMin pending with
    | none =>
      simp [flushAux, hpop]
    | some p =>
      rcases p with ⟨m, rest⟩
      have hrl : rest.length + 1 = pending.length := popMin_length hpop
      have hrest : rest.length ≤ fuel := by omega
      by_cases h1 : m ≤ next
      · by_cases h2 : m < next
        · -- duplicate: discard and continue
          obtain ⟨ha, hb, hc, hd⟩ := ih rest next hrest
          simp only [flushAux, hpop, if_pos h1, if_pos h2]
          refine ⟨ha, hb, ?_, ?_⟩
          · intro x hx
            exact (popMin_mem hpop x).mpr (Or.inr (hc x hx))
          · rcases hd with hd | hd
            · exact Or.inl hd
            · exact Or.inr ((popMin_mem hpop _).mpr (Or.inr hd))
        · have hm : m = next := by omega
          by_cases h3 : proc m
          · -- deliver m = next, continue with next+1
            obtain ⟨ha, hb, hc, hd⟩ := ih rest (next + 1) hrest
            simp only [flushAux, hpop, if_pos h1, if_neg h2, if_pos h3]
            refine ⟨by omega, ?_, ?_, ?_⟩
            · rw [hb]
              have hk : (flushAux proc fuel (next + 1) rest).1 - next =
                  ((flushAux proc fuel (next + 1) rest).1 - (next + 1)) + 1 := by omega
              rw [hk, range_map_consec, hm]
            · intro x hx
              exact (popMin_mem hpop x).mpr (Or.inr (hc x hx))
            · rcases hd with hd | hd
              · refine Or.inr ?_
                rw [hd]
                simp only [Nat.add_sub_cancel]
                exact (popMin_mem hpop next).mpr (Or.inl hm.symm)
              · exact Or.inr ((popMin_mem hpop _).mpr (Or.inr hd))
          · -- processPacket returned stop
            simp only [flushAux, hpop, if_pos h1, if_neg h2, if_neg h3]
            refine ⟨by omega, ?_, ?_, ?_⟩
            · simp [List.range_succ]
              exact hm
            · intro x hx
              exact (popMin_mem hpop x).mpr (Or.inr hx)
            · refine Or.inr ?_
              simp only [Nat.add_sub_cancel]
              exact (popMin_mem hpop next).mpr (Or.inl hm.symm)
      · -- head of queue is beyond next: stop
        simp only [flushAux, hpop, if_neg h1]
        refine ⟨le_refl _, ?_, ?_, ?_⟩
        · simp
        · exact fun x hx => hx
        · exact Or.inl trivial


/-- Extra facts about the flush loop when `processPacket` always returns
`continue`: afterwards every remaining queue element is `> next'`, and a
queue element `≥ next'` survives into the remaining queue. -/
theorem flushAux_true_spec (proc : Nat → Bool) (hproc : ∀ f, proc f = true) :
    ∀ (fuel : Nat) (pending : List Nat) (next : Nat),
      pending.length ≤ fuel →
      (∀ x ∈ (flushAux proc fuel next pending).2.1,
        (flushAux proc fuel next pending).1 < x) ∧
      (∀ x ∈ pending, (flushAux proc fuel next pending).1 ≤ x →
        x ∈ (flushAux proc fuel next pending).2.1) := by
  intro fuel
  induction fuel with
  | zero =>
    intro pending next hlen
    have : pending = [] := List.length_eq_zero.mp (by omega)
    subst this
    simp [flushAux]
  | succ fuel ih =>
    intro pending next hlen
    cases hpop : popMin pending with
    | none =>
      rcases popMin_eq_none.mp hpop with rfl
      simp [flushAux, hpop]
    | some p =>
      rcases p with ⟨m, rest⟩
      have hrl : rest.length + 1 = pending.length := popMin_length hpop
      have hrest : rest.length ≤ fuel := by omega
      by_cases h1 : m ≤ next
      · by_cases h2 : m < next
        · obtain ⟨ha, hb⟩ := ih rest next hrest
          have hnle := (flushAux_spec proc fuel rest next hrest).1
          simp only [flushAux, hpop, if_pos h1, if_pos h2]
          refine ⟨ha, ?_⟩
          intro x hx hge
          rcases (popMin_mem hpop x).mp hx with rfl | hx'
          · omega
          · exact hb x hx' hge
        · have hm : m = next := by omega
          have h3 : proc m = true := hproc m
          obtain ⟨ha, hb⟩ := ih rest (next + 1) hrest
          have hnle := (flushAux_spec proc fuel rest (next + 1) hrest).1
          simp only [flushAux, hpop, if_pos h1, if_neg h2, if_pos h3]
          refine ⟨ha, ?_⟩
          intro x hx hge
          rcases (popMin_mem hpop x).mp hx with rfl | hx'
          · omega
          · exact hb x hx' hge
      · simp only [flushAux, hpop, if_neg h1]
        have hmin := popMin_min hpop
        refine ⟨?_, fun x hx _ => hx⟩
        intro x hx
        have := hmin x hx
        omega

/-- One `insert` call never decreases `next_incoming_seqnum` and delivers
exactly the consecutive block `next, …, next'-1` to `processPacket`, for an
arbitrary continue/stop oracle. -/
theorem stepFull_delivers (proc : Nat → Bool) (st : RBuf) (full : Nat) :
    st.next_incoming_seqnum ≤ (stepFull proc st full).1.next_incoming_seqnum ∧
    (stepFull proc st full).2.2 =
      (List.range ((stepFull proc st full).1.next_incoming_seqnum -
        st.next_incoming_seqnum)).map (st.next_incoming_seqnum + ·) := by
  obtain ⟨next, pending⟩ := st
  simp only [stepFull, flush]
  split_ifs with h1 h2 h3 h4
  · simp
  · simp
  · -- deliver directly, then drain
    obtain ⟨ha, hb, -, -⟩ := flushAux_spec proc pending.length pending (next + 1) le_rfl
    dsimp only
    refine ⟨by omega, ?_⟩
    simp only [hb]
    have hk : (flushAux proc pending.length (next + 1) pending).1 - next =
        ((flushAux proc pending.length (next + 1) pending).1 - (next + 1)) + 1 := by
      omega
    rw [hk, range_map_consec]
    simp [h3]
  · -- processPacket returned stop on the directly delivered packet
    dsimp only
    refine ⟨by omega, ?_⟩
    simp [List.range_succ, h3]
  · simp

/-- With an always-continue `processPacket`, one `insert` call preserves
the invariant that all queued packets are strictly beyond
`next_incoming_seqnum`. -/
theorem stepFull_pending_inv (proc : Nat → Bool) (hproc : ∀ f, proc f = true)
    (st : RBuf) (full : Nat)
    (hinv : ∀ x ∈ st.pending, st.next_incoming_seqnum < x) :
    ∀ x ∈ (stepFull proc st full).1.pending,
      (stepFull proc st full).1.next_incoming_seqnum < x := by
  obtain ⟨next, pending⟩ := st
  simp only [stepFull, flush]
  split_ifs with h1 h2 h3 h4
  · exact hinv
  · exact hinv
  · obtain ⟨ht1, -⟩ :=
      flushAux_true_spec proc hproc pending.length pending (next + 1) le_rfl
    simpa using ht1
  · simp [hproc full] at h4
  · intro x hx
    simp only [List.mem_cons] at hx
    rcases hx with rfl | hx
    · simp at h1 h2 h3 ⊢
      omega
    · simpa using hinv x hx

/-- Across any run, `next_incoming_seqnum` never decreases and the
deliveries are exactly `next, next+1, …, next_final - 1`, in order. -/
theorem runFull_delivers (proc : Nat → Bool) :
    ∀ (fs : List Nat) (st : RBuf),
      st.next_incoming_seqnum ≤ (runFull proc st fs).1.next_incoming_seqnum ∧
      (runFull proc st fs).2 =
        (List.range ((runFull proc st fs).1.next_incoming_seqnum -
          st.next_incoming_seqnum)).map (st.next_incoming_seqnum + ·) := by
  intro fs
  induction fs with
  | nil => intro st; simp [runFull]
  | cons f rest ih =>
    intro st
    obtain ⟨h1, h2⟩ := stepFull_delivers proc st f
    obtain ⟨h3, h4⟩ := ih (stepFull proc st f).1
    simp only [runFull]
    refine ⟨le_trans h1 h3, ?_⟩
    rw [h2, h4]
    exact range_map_append _ _ _ h1 h3

/-- Run-level version of `stepFull_pending_inv`. -/
theorem runFull_pending_inv (proc : Nat → Bool) (hproc : ∀ f, proc f = true) :
    ∀ (fs : List Nat) (st : RBuf),
      (∀ x ∈ st.pending, st.next_incoming_seqnum < x) →
      ∀ x ∈ (runFull proc st fs).1.pending,
        (runFull proc st fs).1.next_incoming_seqnum < x := by
  intro fs
  induction fs with
  | nil => intro st h; simpa [runFull] using h
  | cons f rest ih =>
    intro st h
    simp only [runFull]
    exact ih _ (stepFull_pending_inv proc hproc st f h)

/-- A run of `insert` calls equals the corresponding run of `stepFull`
calls on the computed trace of full seqnums. -/
theorem run_eq_runFull (proc : Nat → Bool) :
    ∀ (arr : List Nat) (st : RBuf),
      run proc st arr = runFull proc st (fullTrace proc st arr) := by
  intro arr
  induction arr with
  | nil => intro st; rfl
  | cons s rest ih =>
    intro st
    simp only [run, insert, fullTrace, runFull]
    rw [ih]

/-- Invariant of the reorder buffer under an always-continue
`processPacket`, relative to the window `[S, S+N)` and the set `seen` of
full seqnums inserted so far: `next` stays in `[S, S+N]`, every queued
packet is strictly beyond `next` and was inserted, and every inserted
seqnum that is still `≥ next` is queued. -/
def ReorderInv (S N : Nat) (seen : Nat → Prop) (st : RBuf) : Prop :=
  S ≤ st.next_incoming_seqnum ∧ st.next_incoming_seqnum ≤ S + N ∧
  (∀ x ∈ st.pending, st.next_incoming_seqnum < x ∧ seen x) ∧
  (∀ x, seen x → st.next_incoming_seqnum ≤ x → x ∈ st.pending)

theorem ReorderInv_congr {S N : Nat} {seen seen' : Nat → Prop} {st : RBuf}
    (h : ReorderInv S N seen st) (hiff : ∀ x, seen x ↔ seen' x) :
    ReorderInv S N seen' st := by
  obtain ⟨h1, h2, h3, h4⟩ := h
  exact ⟨h1, h2, fun x hx => ⟨(h3 x hx).1, (hiff x).mp (h3 x hx).2⟩,
    fun x hx => h4 x ((hiff x).mpr hx)⟩

theorem stepFull_ReorderInv (proc : Nat → Bool) (hproc : ∀ f, proc f = true)
    {S N : Nat} (hN : N ≤ MAX_RELIABLE_WINDOW_SIZE)
    {seen : Nat → Prop} {st : RBuf} (hinv : ReorderInv S N seen st)
    {full : Nat} (hfull : S ≤ full ∧ full < S + N)
    (hseen : ∀ x, seen x → S ≤ x ∧ x < S + N) :
    ReorderInv S N (fun x => x = full ∨ seen x) (stepFull proc st full).1 := by
  obtain ⟨hS, hSN, hpend, hrec⟩ := hinv
  obtain ⟨next, pending⟩ := st
  simp only at hS hSN hpend hrec
  have hwin : ¬ full > next + MAX_RELIABLE_WINDOW_SIZE := by
    simp only [MAX_RELIABLE_WINDOW_SIZE] at hN ⊢
    omega
  simp only [stepFull, flush, if_neg hwin]
  split_ifs with h2 h3 h4
  · -- full < next: duplicate of a delivered packet
    refine ⟨hS, hSN, ?_, ?_⟩
    · exact fun x hx => ⟨(hpend x hx).1, Or.inr (hpend x hx).2⟩
    · intro x hx hge
      dsimp only at hge ⊢
      rcases hx with rfl | hx
      · omega
      · exact hrec x hx hge
  · -- full = next: deliver directly then drain the queue
    obtain ⟨ha, -, hc, hd⟩ := flushAux_spec proc pending.length pending (next + 1) le_rfl
    obtain ⟨ht1, ht2⟩ :=
      flushAux_true_spec proc hproc pending.length pending (next + 1) le_rfl
    subst h3
    refine ⟨?_, ?_, ?_, ?_⟩
    · dsimp only; omega
    · -- next' ≤ S + N
      dsimp only
      rcases hd with hd | hd
      · omega
      · have := hseen _ (hpend _ hd).2
        omega
    · intro x hx
      dsimp only at hx ⊢
      exact ⟨ht1 x hx, Or.inr (hpend x (hc x hx)).2⟩
    · intro x hx hge
      dsimp only at hge ⊢
      rcases hx with rfl | hx
      · -- x = full < next+1 ≤ next'
        omega
      · have hx' := hrec x hx
        by_cases hcase : full + 1 ≤ x
        · exact ht2 x (hx' (by omega)) hge
        · omega
  · -- full = next but processPacket returned stop: excluded by hproc
    rw [hproc full] at h4
    exact absurd rfl h4
  · -- next < full ≤ next + window: queue the packet
    have hgt : next < full := by omega
    refine ⟨hS, hSN, ?_, ?_⟩
    · intro x hx
      dsimp only at hx ⊢
      rcases List.mem_cons.mp hx with rfl | hx
      · exact ⟨hgt, Or.inl rfl⟩
      · exact ⟨(hpend x hx).1, Or.inr (hpend x hx).2⟩
    · intro x hx hge
      dsimp only at hge ⊢
      rcases hx with rfl | hx
      · exact List.mem_cons_self _ _
      · exact List.mem_cons_of_mem _ (hrec x hx hge)

theorem runFull_ReorderInv (proc : Nat → Bool) (hproc : ∀ f, proc f = true)
    {S N : Nat} (hN : N ≤ MAX_RELIABLE_WINDOW_SIZE) :
    ∀ (fs : List Nat) (seen : Nat → Prop) (st : RBuf),
      ReorderInv S N seen st →
      (∀ x, seen x → S ≤ x ∧ x < S + N) →
      (∀ f ∈ fs, S ≤ f ∧ f < S + N) →
      ReorderInv S N (fun x => x ∈ fs ∨ seen x) (runFull proc st fs).1 := by
  intro fs
  induction fs with
  | nil =>
    intro seen st hinv hseen hfs
    simp only [runFull]
    exact ReorderInv_congr hinv (by simp)
  | cons f rest ih =>
    intro seen st hinv hseen hfs
    simp only [runFull]
    have hstep := stepFull_ReorderInv proc hproc hN hinv
      (hfs f (List.mem_cons_self _ _)) hseen
    have hseen' : ∀ x, (x = f ∨ seen x) → S ≤ x ∧ x < S + N := by
      intro x hx
      rcases hx with rfl | hx
      · exact hfs x (List.mem_cons_self _ _)
      · exact hseen x hx
    have := ih _ _ hstep hseen'
      (fun g hg => hfs g (List.mem_cons_of_mem _ hg))
    refine ReorderInv_congr this ?_
    intro x
    simp [List.mem_cons]
    tauto

/-- C1: starting from `next_incoming_seqnum = S` with an empty queue and an
always-continue `processPacket`, any finite arrival sequence of reliable
packets whose 16-bit seqnums extrapolate (line 32) to full seqnums drawn
from `{S, …, S+N-1}` with `N ≤ MAX_RELIABLE_WINDOW_SIZE`, each full seqnum
occurring at least once (duplicates allowed), makes
`ReliableReceivedPacketBuffer::insert` invoke `processPacket` exactly `N`
times, with full seqnums `S, S+1, …, S+N-1` in strictly ascending order,
each exactly once. -/
theorem reliable_in_order_delivery (S N : Nat) (arr : List Nat)
    (hN : N ≤ MAX_RELIABLE_WINDOW_SIZE)
    (hrange : ∀ f ∈ fullTrace (fun _ => true) ⟨S, []⟩ arr, S ≤ f ∧ f < S + N)
    (hcover : ∀ k, k < N → S + k ∈ fullTrace (fun _ => true) ⟨S, []⟩ arr) :
    (run (fun _ => true) ⟨S, []⟩ arr).2 = (List.range N).map (S + ·) := by
  have hproc : ∀ f, (fun (_ : Nat) => true) f = true := fun _ => rfl
  have hrun := run_eq_runFull (fun _ => true) arr ⟨S, []⟩
  have hInv0 : ReorderInv S N (fun _ => False) ⟨S, []⟩ :=
    ⟨le_refl _, Nat.le_add_right _ _, by simp, by simp⟩
  have hInvF := runFull_ReorderInv (fun _ => true) hproc hN
    (fullTrace (fun _ => true) ⟨S, []⟩ arr) (fun _ => False) ⟨S, []⟩ hInv0
    (by simp) hrange
  obtain ⟨hS', hSN', hpend', hrec'⟩ := hInvF
  obtain ⟨hle, hdel⟩ :=
    runFull_delivers (fun _ => true) (fullTrace (fun _ => true) ⟨S, []⟩ arr) ⟨S, []⟩
  have hnf :
      (runFull (fun _ => true) ⟨S, []⟩
        (fullTrace (fun _ => true) ⟨S, []⟩ arr)).1.next_incoming_seqnum = S + N := by
    by_contra hne
    set nf := (runFull (fun _ => true) ⟨S, []⟩
      (fullTrace (fun _ => true) ⟨S, []⟩ arr)).1.next_incoming_seqnum with hnfd
    have hlt : nf < S + N := lt_of_le_of_ne hSN' hne
    have hmem : nf ∈ fullTrace (fun _ => true) ⟨S, []⟩ arr := by
      have := hcover (nf - S) (by omega)
      have heq : S + (nf - S) = nf := by omega
      rwa [heq] at this
    have hq := hrec' nf (Or.inl hmem) (le_refl _)
    exact absurd (hpend' nf hq).1 (lt_irrefl _)
  rw [hrun, hdel, hnf]
  simp

/-- Witness for `reliable_in_order_delivery`: the out-of-order arrival
`65501, 65500, 65502` from `next = 65500` delivers `65500, 65501, 65502`. -/
theorem reliable_in_order_delivery_witness :
    (run (fun _ => true) ⟨65500, []⟩ [65501, 65500, 65502]).2 =
      (List.range 3).map (65500 + ·) :=
  reliable_in_order_delivery 65500 3 [65501, 65500, 65502] (by decide)
    (by decide) (by decide)

/-- C3: every `insert` call whose computed `full_seqnum` is at most
`next_incoming_seqnum + MAX_RELIABLE_WINDOW_SIZE` invokes `sendAck`
exactly once (this includes duplicates with
`full_seqnum < next_incoming_seqnum`); if the bound is exceeded, `sendAck`
is not invoked, nothing is delivered, and the state
(`next_incoming_seqnum` and the pending queue) is unchanged. -/
theorem insert_ack_policy (proc : Nat → Bool) (st : RBuf) (seqnum : Nat) :
    (compute_full_seqnum st.next_incoming_seqnum seqnum ≤
        st.next_incoming_seqnum + MAX_RELIABLE_WINDOW_SIZE →
      (insert proc st seqnum).2.1 = 1) ∧
    (compute_full_seqnum st.next_incoming_seqnum seqnum >
        st.next_incoming_seqnum + MAX_RELIABLE_WINDOW_SIZE →
      (insert proc st seqnum).2.1 = 0 ∧
      (insert proc st seqnum).1 = st ∧ (insert proc st seqnum).2.2 = []) := by
  unfold insert stepFull
  constructor
  · intro hle
    rw [if_neg (by omega)]
    split_ifs <;> rfl
  · intro hgt
    rw [if_pos hgt]
    exact ⟨rfl, rfl, rfl⟩

/-- Witness for `insert_ack_policy`: an in-window packet (a duplicate,
even) is ACKed once; from `next = 0`, wire seqnum `40000` extrapolates to
`40000 > 0 + 0x8000` and is dropped without an ACK, leaving the state
unchanged. -/
theorem insert_ack_policy_witness :
    (insert (fun _ => true) ⟨65500, []⟩ 65499).2.1 = 1 ∧
    (insert (fun _ => true) ⟨0, []⟩ 40000).2.1 = 0 ∧
    (insert (fun _ => true) ⟨0, []⟩ 40000).1 = ⟨0, []⟩ :=
  ⟨(insert_ack_policy (fun _ => true) ⟨65500, []⟩ 65499).1 (by decide),
    ((insert_ack_policy (fun _ => true) ⟨0, []⟩ 40000).2 (by decide)).1,
    ((insert_ack_policy (fun _ => true) ⟨0, []⟩ 40000).2 (by decide)).2.1⟩

/-- C9 (counterexample): the claimed invariant "every resident packet has
`full_seqnum ≥ next_incoming_seqnum` at every point where `insert`
returns, including when `processPacket` returned stop" is false.  Starting
from `next = 65500`, queue seqnum `65501` twice, then insert `65500` with
a `processPacket` that stops on `65501`: the flush delivers `65501`
(raising `next` to `65502`) and then stops, leaving the second copy of
`65501 < 65502` resident in the queue. -/
theorem reorder_invariant_stop_cex :
    (run (fun f => f != 65501) ⟨65500, []⟩ [65501, 65501, 65500]).1 =
      ⟨65502, [65501]⟩ ∧ 65501 < 65502 := by
  constructor
  · decide
  · decide

/-- C9 (amended): at every point where `insert` returns, (i) for an
arbitrary continue/stop `processPacket` the packets delivered so far are
the consecutive seqnums `S, S+1, …, next-1` in order, hence pairwise
distinct: a duplicate is dropped on extraction rather than delivered,
even across a stop; and (ii) provided `processPacket` always returned
continue, every resident packet has
`full_seqnum ≥ next_incoming_seqnum` (indeed strictly greater).  After a
stop, (ii) may fail for a resident duplicate
(`reorder_invariant_stop_cex`). -/
theorem reorder_buffer_invariants (proc : Nat → Bool) (S : Nat) (arr : List Nat) :
    (run proc ⟨S, []⟩ arr).2 =
      (List.range ((run proc ⟨S, []⟩ arr).1.next_incoming_seqnum - S)).map (S + ·) ∧
    (run proc ⟨S, []⟩ arr).2.Nodup ∧
    ((∀ f, proc f = true) →
      ∀ x ∈ (run proc ⟨S, []⟩ arr).1.pending,
        (run proc ⟨S, []⟩ arr).1.next_incoming_seqnum ≤ x) := by
  have hrun := run_eq_runFull proc arr ⟨S, []⟩
  obtain ⟨hle, hdel⟩ := runFull_delivers proc (fullTrace proc ⟨S, []⟩ arr) ⟨S, []⟩
  refine ⟨by rw [hrun]; exact hdel, ?_, ?_⟩
  · rw [hrun, hdel]
    exact List.Nodup.map (fun a b h => by omega) (List.nodup_range _)
  · intro hproc x hx
    rw [hrun] at hx ⊢
    have := runFull_pending_inv proc hproc (fullTrace proc ⟨S, []⟩ arr) ⟨S, []⟩
      (by simp) x hx
    omega

/-- Witness for `reorder_buffer_invariants` on a small concrete run. -/
theorem reorder_buffer_invariants_witness :
    (run (fun _ => true) ⟨65500, []⟩ [65501, 65500]).2.Nodup ∧
    ∀ x ∈ (run (fun _ => true) ⟨65500, []⟩ [65501, 65500]).1.pending,
      (run (fun _ => true) ⟨65500, []⟩ [65501, 65500]).1.next_incoming_seqnum ≤ x := by
  obtain ⟨h1, h2, h3⟩ := reorder_buffer_invariants (fun _ => true) 65500 [65501, 65500]
  exact ⟨h2, h3 (fun _ => rfl)⟩

/-! ## Timeout queue and handle (src/util/timeout_queue.h)

A `TimeoutHandle` owns exactly one heap node holding
`{expiration : u64, callback}`; `setTimeout` first calls `clearTimeout`
and then inserts the node with `expiration = getTimeMs() + delayMs`;
`clearTimeout` (also called by the destructor) removes the node if
resident; `processTimeouts` pops every record with `expiration < now`
(strict) and invokes its callback after removal.  Since `processTimeouts`
pops *all* records below `now`, whether the handle's record fires at a
given call is independent of other handles' records, so a single handle is
modelled by its resident expiration (`none` when not in the heap).  Each
operation carries the wall-clock time at which it runs; firing is recorded
as the time of the `processTimeouts` call that ran the callback. -/

inductive TEvent where
  | set (delay : Nat)
  | clear
  | proc
  deriving Repr, DecidableEq

/-- One operation on the handle, performed at wall-clock time `now`. -/
def tstep (st : Option Nat) : Nat × TEvent → Option Nat × List Nat
  | (now, TEvent.set d) => (some (now + d), [])
  | (_, TEvent.clear) => (none, [])
  | (now, TEvent.proc) =>
    match st with
    | some e => if e < now then (none, [now]) else (st, [])
    | none => (none, [])

/-- Run a trace of timestamped operations; returns the final handle state
and the times at which the handle's callback fired. -/
def trun (st : Option Nat) : List (Nat × TEvent) → Option Nat × List Nat
  | [] => (st, [])
  | ev :: rest =>
    let r := tstep st ev
    let r2 := trun r.1 rest
    (r2.1, r.2 ++ r2.2)

/-- The time of the first `processTimeouts` event in the trace whose
wall-clock time is strictly beyond `e`. -/
def firstFireTime (e : Nat) : List (Nat × TEvent) → Option Nat
  | [] => none
  | (now, TEvent.proc) :: rest =>
    if e < now then some now else firstFireTime e rest
  | _ :: rest => firstFireTime e rest

def isSetEvent : Nat × TEvent → Bool
  | (_, TEvent.set _) => true
  | _ => false

theorem trun_append (st : Option Nat) (l1 l2 : List (Nat × TEvent)) :
    trun st (l1 ++ l2) =
      ((trun (trun st l1).1 l2).1, (trun st l1).2 ++ (trun (trun st l1).1 l2).2) := by
  induction l1 generalizing st with
  | nil => simp [trun]
  | cons ev rest ih =>
    simp only [List.cons_append, trun, List.append_eq]
    rw [ih ((tstep st ev).1)]
    simp [List.append_assoc]

/-- With the node out of the heap and no further `setTimeout`, the
callback never fires. -/
theorem trun_none_no_set (post : List (Nat × TEvent))
    (h : ∀ ev ∈ post, ∀ d, ev.2 ≠ TEvent.set d) :
    trun none post = (none, []) := by
  induction post with
  | nil => rfl
  | cons ev rest ih =>
    obtain ⟨now, e⟩ := ev
    cases e with
    | set d => exact absurd rfl (h (now, TEvent.set d) (List.mem_cons_self _ _) d)
    | clear =>
      simp only [trun, tstep]
      simpa using ih fun ev hev => h ev (List.mem_cons_of_mem _ hev)
    | proc =>
      simp only [trun, tstep]
      simpa using ih fun ev hev => h ev (List.mem_cons_of_mem _ hev)

/-- With the node resident with expiration `e` and only `processTimeouts`
events following, the callback fires exactly at the first call whose time
is strictly beyond `e` (if any), and exactly once. -/
theorem trun_some_fires (e : Nat) (post : List (Nat × TEvent))
    (h : ∀ ev ∈ post, ev.2 = TEvent.proc) :
    (trun (some e) post).2 = (firstFireTime e post).toList := by
  induction post with
  | nil => rfl
  | cons ev rest ih =>
    obtain ⟨now, evt⟩ := ev
    have hevt : evt = TEvent.proc := h (now, evt) (List.mem_cons_self _ _)
    subst hevt
    by_cases hlt : e < now
    · simp only [trun, tstep, if_pos hlt, firstFireTime]
      have : trun none rest = (none, []) := by
        apply trun_none_no_set
        intro ev hev d
        rw [h ev (List.mem_cons_of_mem _ hev)]
        intro hcon
        exact TEvent.noConfusion hcon
      simp [this, hlt]
    · simp only [trun, tstep, if_neg hlt, firstFireTime]
      simpa [hlt] using ih fun ev hev => h ev (List.mem_cons_of_mem _ hev)

/-- Each `setTimeout` yields at most one firing: the number of fires is
bounded by the number of `set` events plus one for an initially armed
node. -/
theorem trun_fires_bound :
    ∀ (ops : List (Nat × TEvent)) (st : Option Nat),
      (trun st ops).2.length ≤
        (ops.filter isSetEvent).length + (if st.isSome then 1 else 0) := by
  intro ops
  induction ops with
  | nil => intro st; simp [trun]
  | cons ev rest ih =>
    intro st
    obtain ⟨now, evt⟩ := ev
    cases evt with
    | set d =>
      have := ih (some (now + d))
      simp only [trun, tstep, List.filter, isSetEvent] at this ⊢
      simp at this ⊢
      omega
    | clear =>
      have := ih none
      simp only [trun, tstep, List.filter, isSetEvent] at this ⊢
      simp at this ⊢
      omega
    | proc =>
      cases st with
      | none =>
        have := ih none
        simp only [trun, tstep, List.filter, isSetEvent] at this ⊢
        simp at this ⊢
        omega
      | some e =>
        by_cases hlt : e < now
        · have := ih none
          simp only [trun, tstep, if_pos hlt, List.filter, isSetEvent] at this ⊢
          simp at this ⊢
          omega
        · have := ih (some e)
          simp only [trun, tstep, if_neg hlt, List.filter, isSetEvent] at this ⊢
          simp at this ⊢
          omega

/-- C6 (counterexample): a `processTimeouts` at wall-clock exactly
`t0 + d` does not fire the callback, because the code pops only records
with `expiration < now` (strict); the claim requires firing at the first
call with wall-clock `≥ t0 + d`. -/
theorem timeout_boundary_cex :
    (trun none [(0, TEvent.set 10), (10, TEvent.proc)]).2 = [] ∧
    (10 : Nat) ≥ 0 + 10 := by
  constructor
  · rfl
  · decide

/-- C6 (amended): (i) after `setTimeout(d)` at time `t0`, with only
`processTimeouts` calls following, the callback runs exactly once, namely
at the first `processTimeouts` whose wall-clock time is *strictly greater*
than `t0 + d` (and never if there is no such call); (ii) after
`clearTimeout` (or handle destruction) with no further `setTimeout`, the
callback never runs; (iii) on any trace from an unarmed handle the
callback runs at most once per `setTimeout` (re-setting before the
firing cancels the earlier scheduling). -/
theorem timeout_handle_semantics (st0 : Option Nat)
    (pre post : List (Nat × TEvent)) (t0 d : Nat)
    (hpost : ∀ ev ∈ post, ev.2 = TEvent.proc) :
    (trun st0 (pre ++ (t0, TEvent.set d) :: post)).2 =
      (trun st0 pre).2 ++ (firstFireTime (t0 + d) post).toList ∧
    (∀ (pre' post' : List (Nat × TEvent)) (t1 : Nat),
      (∀ ev ∈ post', ∀ dd, ev.2 ≠ TEvent.set dd) →
      (trun st0 (pre' ++ (t1, TEvent.clear) :: post')).2 = (trun st0 pre').2) ∧
    (∀ ops : List (Nat × TEvent),
      (trun (none : Option Nat) ops).2.length ≤ (ops.filter isSetEvent).length) := by
  refine ⟨?_, ?_, ?_⟩
  · rw [trun_append]
    simp only [trun, tstep]
    rw [trun_some_fires (t0 + d) post hpost]
    simp
  · intro pre' post' t1 hps
    rw [trun_append]
    simp only [trun, tstep]
    rw [trun_none_no_set post' hps]
    simp [trun]
  · intro ops
    have := trun_fires_bound ops none
    simpa using this

/-- Witness for `timeout_handle_semantics`: arm at `t0 = 0` with
`d = 10`; `processTimeouts` at 5 and at 10 do not fire (10 is not strictly
past the deadline), the one at 100 fires, the one at 200 does not. -/
theorem timeout_handle_semantics_witness :
    (trun none [(0, TEvent.set 10), (5, TEvent.proc), (100, TEvent.proc),
      (200, TEvent.proc)]).2 = [100] := by
  have h := (timeout_handle_semantics none []
    [(5, TEvent.proc), (100, TEvent.proc), (200, TEvent.proc)] 0 10
    (by decide)).1
  simpa [trun, firstFireTime] using h

/-! ## Split packet reassembly (src/network/split.cpp)

`IncomingSplitPacket` holds `m_chunk_count`, `m_reliable`,
`m_chunks : std::map<u16, ReceivedPacketPtr>` and a timeout handle;
`IncomingSplitBuffer` holds `m_buf : unordered_map<u16, IncomingSplitPacket*>`
keyed by split seqnum.  The sanity check in `IncomingSplitPacket::insert`
guarantees every stored chunk number is `< m_chunk_count` (the process is
aborted otherwise), so `m_chunks` is modelled as a partial map
`Nat → Option (List Nat)` from chunk number to payload; `m_chunks.size()`
is then the number of present keys below `m_chunk_count`, and
`reassemble`'s iteration of the `std::map` in ascending key order is the
iteration of `0, …, m_chunk_count-1`.  The timeout handle is modelled by
its armed expiration (`none` when not armed; `resetTimeout` arms
unreliable groups only).  A `sanity_check` failure aborts the process,
modelled by `none` outcomes. -/

structure SplitPkt where
  seqnum : Nat
  chunk_count : Nat
  chunk_num : Nat
  is_reliable : Bool
  payload : List Nat

structure SplitGroup where
  chunk_count : Nat
  reliable : Bool
  chunks : Nat → Option (List Nat)
  deadline : Option Nat

/-- `m_chunks.size()`: number of chunks stored (all keys are below
`m_chunk_count` thanks to the sanity check). -/
def chunksSize (g : SplitGroup) : Nat :=
  (List.range g.chunk_count).countP fun k => (g.chunks k).isSome

/-- `IncomingSplitPacket::allReceived`. -/
def allReceived (g : SplitGroup) : Bool :=
  chunksSize g == g.chunk_count

/-- `IncomingSplitPacket::reassemble`: concatenate the chunk payloads in
ascending `chunk_num` order. -/
def reassemble (g : SplitGroup) : List Nat :=
  ((List.range g.chunk_count).filterMap g.chunks).flatten

/-- `IncomingSplitPacket::insert` (split.cpp lines 42-67):
`sanity_check(chunk_num < m_chunk_count)` aborts on failure (`none`);
a `chunk_count` mismatch is logged and the packet ignored; a reliable-flag
mismatch only warns; a duplicate `chunk_num` is ignored; otherwise the
chunk is stored and `resetTimeout` re-arms the deadline (unreliable groups
only). -/
def groupInsert (now : Nat) (g : SplitGroup) (p : SplitPkt) : Option SplitGroup :=
  if ¬ p.chunk_num < g.chunk_count then
    none
  else if g.chunk_count ≠ p.chunk_count then
    some g
  else if (g.chunks p.chunk_num).isSome then
    some g
  else
    some { g with
      chunks := fun k => if k = p.chunk_num then some p.payload else g.chunks k,
      deadline := if g.reliable then g.deadline
        else some (now + SPLIT_TIMEOUT_MS) }

/-- `m_buf.find(seqnum)` on the association list. -/
def lookupGroup (k : Nat) : List (Nat × SplitGroup) → Option SplitGroup
  | [] => none
  | (k', g) :: rest => if k = k' then some g else lookupGroup k rest

/-- `m_buf[seqnum] = sp` (insert or overwrite). -/
def setGroup (k : Nat) (g : SplitGroup) :
    List (Nat × SplitGroup) → List (Nat × SplitGroup)
  | [] => [(k, g)]
  | (k', g') :: rest =>
    if k = k' then (k, g) :: rest else (k', g') :: setGroup k g rest

/-- `m_buf.erase(seqnum)`. -/
def eraseGroup (k : Nat) :
    List (Nat × SplitGroup) → List (Nat × SplitGroup)
  | [] => []
  | (k', g') :: rest => if k = k' then rest else (k', g') :: eraseGroup k rest

/-- `IncomingSplitBuffer::insert` (split.cpp lines 103-127): look up the
group at the packet's split seqnum, creating it (timeout armed for
unreliable groups) if absent; insert the chunk; if afterwards all chunks
are present, remove the group, reassemble, and deliver.  Returns `none`
if the sanity check aborted, otherwise the new buffer and the delivered
payload, if any. -/
def groupAt (now : Nat) (st : List (Nat × SplitGroup)) (p : SplitPkt) : SplitGroup :=
  match lookupGroup p.seqnum st with
  | none =>
    -- new IncomingSplitPacket(this, seqnum, chunk_count, reliable, tq);
    -- the constructor calls resetTimeout, arming unreliable groups.
    { chunk_count := p.chunk_count, reliable := p.is_reliable,
      chunks := fun _ => none,
      deadline := if p.is_reliable then none
        else some (now + SPLIT_TIMEOUT_MS) }
  | some g => g

def splitInsert (now : Nat) (st : List (Nat × SplitGroup)) (p : SplitPkt) :
    Option (List (Nat × SplitGroup) × Option (List Nat)) :=
  match groupInsert now (groupAt now st p) p with
  | none => none
  | some sp =>
    if allReceived sp then
      some (eraseGroup p.seqnum st, some (reassemble sp))
    else
      some (setGroup p.seqnum sp st, none)

/-- `TimeoutQueue::processTimeouts` driving
`IncomingSplitBuffer::handleTimeout` (split.cpp lines 129-137): every
group whose armed deadline has expired (`expiration < now`) is removed
from the buffer and deleted; no payload is delivered (second component). -/
def splitProcessTimeouts (now : Nat) (st : List (Nat × SplitGroup)) :
    List (Nat × SplitGroup) × List (List Nat) :=
  (st.filter fun e =>
    match e.2.deadline with
    | some ex => decide (¬ ex < now)
    | none => true, [])

inductive SplitOp where
  | pkt (now : Nat) (p : SplitPkt)
  | timeouts (now : Nat)

/-- Run a sequence of packet arrivals and `processTimeouts` calls from a
buffer state, collecting the delivered payloads; `none` if aborted. -/
def splitExec (st : List (Nat × SplitGroup)) :
    List SplitOp → Option (List (Nat × SplitGroup) × List (List Nat))
  | [] => some (st, [])
  | SplitOp.pkt now p :: rest =>
    match splitInsert now st p with
    | none => none
    | some (st', d) =>
      (splitExec st' rest).map fun r => (r.1, d.toList ++ r.2)
  | SplitOp.timeouts now :: rest =>
    (splitExec (splitProcessTimeouts now st).1 rest).map
      fun r => (r.1, (splitProcessTimeouts now st).2 ++ r.2)

theorem splitExec_cons_pkt (st : List (Nat × SplitGroup)) (now : Nat)
    (p : SplitPkt) (rest : List SplitOp) :
    splitExec st (SplitOp.pkt now p :: rest) =
      match splitInsert now st p with
      | none => none
      | some (st', d) =>
        (splitExec st' rest).map fun r => (r.1, d.toList ++ r.2) := rfl

theorem filterMap_eq_map_of_forall_some {α β : Type} {f : α → Option β}
    {g : α → β} {l : List α} (h : ∀ x ∈ l, f x = some (g x)) :
    l.filterMap f = l.map g := by
  induction l with
  | nil => rfl
  | cons a rest ih =>
    rw [List.filterMap_cons, h a (List.mem_cons_self _ _), List.map_cons,
      ih fun x hx => h x (List.mem_cons_of_mem _ hx)]

theorem chunksSize_eq_iff (g : SplitGroup) :
    chunksSize g = g.chunk_count ↔
      ∀ k, k < g.chunk_count → (g.chunks k).isSome := by
  unfold chunksSize
  have h := List.countP_eq_length
    (p := fun k => (g.chunks k).isSome) (l := List.range g.chunk_count)
  constructor
  · intro hsz k hk
    have hall := h.mp (by simpa using hsz)
    exact hall k (List.mem_range.mpr hk)
  · intro hall
    have := h.mpr fun a ha => hall a (List.mem_range.mp ha)
    simpa using this

/-- Core induction for split reassembly.  The state `st` holds (at most)
the group for seqnum `q`, whose stored chunks are exactly `seen`; feeding
the remaining arrivals for this group — all chunk numbers `< C`, jointly
covering every missing chunk, completion not reached before the last
arrival — delivers the full concatenation exactly once, with the chunks
in ascending chunk-number order, and removes the group. -/
theorem splitExec_group (q C : Nat) (r : Bool) (payload : Nat → List Nat) :
    ∀ (rest : List (Nat × Nat)) (seen : List Nat)
      (st : List (Nat × SplitGroup)),
      eraseGroup q st = [] →
      (∀ g', setGroup q g' st = [(q, g')]) →
      (∀ t' k', (groupAt t' st ⟨q, C, k', r, payload k'⟩).chunk_count = C ∧
        (groupAt t' st ⟨q, C, k', r, payload k'⟩).reliable = r ∧
        (∀ k'', (groupAt t' st ⟨q, C, k', r, payload k'⟩).chunks k'' =
          if k'' ∈ seen then some (payload k'') else none)) →
      (∀ k ∈ seen, k < C) →
      (∀ a ∈ rest, a.2 < C) →
      (∀ k, k < C → k ∈ seen ∨ k ∈ rest.map Prod.snd) →
      (¬ ∀ k, k < C → k ∈ seen ∨ k ∈ rest.dropLast.map Prod.snd) →
      splitExec st
        (rest.map fun a => SplitOp.pkt a.1 ⟨q, C, a.2, r, payload a.2⟩) =
        some ([], [((List.range C).map payload).flatten]) := by
  intro rest
  induction rest with
  | nil =>
    intro seen st herase hset hsel hseenC hnums hcover hlast
    exfalso
    apply hlast
    simpa using hcover
  | cons a rest' ih =>
    intro seen st herase hset hsel hseenC hnums hcover hlast
    obtain ⟨t, k⟩ := a
    have hkC : k < C := hnums (t, k) (List.mem_cons_self _ _)
    obtain ⟨hgc, hgr, hch⟩ := hsel t k
    set g := groupAt t st ⟨q, C, k, r, payload k⟩ with hgdef
    by_cases hks : k ∈ seen
    · -- duplicate chunk: ignored
      have hgi : groupInsert t g ⟨q, C, k, r, payload k⟩ = some g := by
        simp [groupInsert, hgc, hkC, hch k, hks]
      -- the group is not complete
      have hlast' : ¬ ∀ k', k' < C → k' ∈ seen ∨
          k' ∈ rest'.dropLast.map Prod.snd := by
        intro hcon
        apply hlast
        intro k' hk'
        rcases hcon k' hk' with h | h
        · exact Or.inl h
        · refine Or.inr ?_
          rcases rest' with _ | ⟨b, rest''⟩
          · simp at h
          · simp only [List.dropLast_cons₂, List.map_cons, List.mem_cons] at h ⊢
            exact Or.inr h
      have hnotall : allReceived g = false := by
        unfold allReceived
        rw [beq_eq_false_iff_ne]
        intro hsz
        have hall := (chunksSize_eq_iff g).mp hsz
        push_neg at hlast'
        obtain ⟨k0, hk0C, hk0s, -⟩ := hlast'
        have h2 := hall k0 (by omega)
        rw [hch k0, if_neg hk0s] at h2
        simp at h2
      have hins : splitInsert t st ⟨q, C, k, r, payload k⟩ =
          some (setGroup q g st, none) := by
        unfold splitInsert
        rw [← hgdef, hgi]
        simp [hnotall]
      rw [List.map_cons, splitExec_cons_pkt, hins]
      dsimp only
      rw [hset g, ih seen [(q, g)] (by simp [eraseGroup]) (by simp [setGroup])
        (fun t' k' => by
          constructor
          · simpa [groupAt, lookupGroup] using hgc
          constructor
          · simpa [groupAt, lookupGroup] using hgr
          · intro k''
            simpa [groupAt, lookupGroup] using hch k'')
        hseenC (fun a ha => hnums a (List.mem_cons_of_mem _ ha))
        (fun k' hk' => by
          rcases hcover k' hk' with h | h
          · exact Or.inl h
          · simp only [List.map_cons, List.mem_cons] at h
            rcases h with rfl | h
            · exact Or.inl hks
            · exact Or.inr h)
        hlast']
      rfl
    · -- new chunk: store it
      have hgi : groupInsert t g ⟨q, C, k, r, payload k⟩ = some
          { g with
            chunks := fun k' => if k' = k then some (payload k) else g.chunks k',
            deadline := if g.reliable then g.deadline
              else some (t + SPLIT_TIMEOUT_MS) } := by
        simp [groupInsert, hgc, hkC, hch k, hks]
      set g' : SplitGroup :=
        { g with
          chunks := fun k' => if k' = k then some (payload k) else g.chunks k',
          deadline := if g.reliable then g.deadline
            else some (t + SPLIT_TIMEOUT_MS) } with hgdef2
      have hch' : ∀ k'', g'.chunks k'' =
          if k'' ∈ k :: seen then some (payload k'') else none := by
        intro k''
        rw [hgdef2]
        dsimp only
        by_cases hkk : k'' = k
        · subst hkk
          simp
        · rw [if_neg hkk, hch k'']
          have hmem : (k'' ∈ k :: seen) ↔ (k'' ∈ seen) := by simp [hkk]
          by_cases hs : k'' ∈ seen
          · rw [if_pos hs, if_pos (hmem.mpr hs)]
          · rw [if_neg hs, if_neg fun hc => hs (hmem.mp hc)]
      rcases rest' with _ | ⟨b, rest''⟩
      · -- this was the last arrival: the group completes now
        have hfull : ∀ k', k' < C → (g'.chunks k').isSome := by
          intro k' hk'
          rw [hch' k']
          rcases hcover k' hk' with h | h
          · simp [List.mem_cons, h]
          · simp only [List.map_cons, List.map_nil, List.mem_cons,
              List.not_mem_nil, or_false] at h
            simp [List.mem_cons, h]
        have hall : allReceived g' = true := by
          unfold allReceived
          rw [beq_iff_eq]
          apply (chunksSize_eq_iff g').mpr
          intro k' hk'
          exact hfull k' (by simpa [hgdef2, hgc] using hk')
        have hreasm : reassemble g' = ((List.range C).map payload).flatten := by
          unfold reassemble
          have hcnt : g'.chunk_count = C := by simp [hgdef2, hgc]
          rw [hcnt]
          congr 1
          apply filterMap_eq_map_of_forall_some
          intro k' hk'
          rw [hch' k']
          rw [if_pos ?_]
          rcases hcover k' (List.mem_range.mp hk') with h | h
          · exact List.mem_cons_of_mem _ h
          · simp only [List.map_cons, List.map_nil, List.mem_cons,
              List.not_mem_nil, or_false] at h
            exact h ▸ List.mem_cons_self _ _
        have hins : splitInsert t st ⟨q, C, k, r, payload k⟩ =
            some (eraseGroup q st, some (reassemble g')) := by
          unfold splitInsert
          rw [← hgdef, hgi]
          simp [hall]
        simp only [List.map_cons, List.map_nil, splitExec, hins, herase, hreasm]
        rfl
      · -- more arrivals follow: the group must not complete yet
        have hlast' : ¬ ∀ k', k' < C → k' ∈ k :: seen ∨
            k' ∈ (b :: rest'').dropLast.map Prod.snd := by
          intro hcon
          apply hlast
          intro k' hk'
          rcases hcon k' hk' with h | h
          · rcases List.mem_cons.mp h with rfl | h
            · exact Or.inr (by simp [List.dropLast_cons₂])
            · exact Or.inl h
          · refine Or.inr ?_
            simp only [List.dropLast_cons₂, List.map_cons, List.mem_cons] at h ⊢
            exact Or.inr h
        have hnotall : allReceived g' = false := by
          unfold allReceived
          rw [beq_eq_false_iff_ne]
          intro hsz
          have hall := (chunksSize_eq_iff g').mp hsz
          push_neg at hlast'
          obtain ⟨k0, hk0C, hk0s, -⟩ := hlast'
          have hcnt : g'.chunk_count = C := by simp [hgdef2, hgc]
          have h2 := hall k0 (by omega)
          rw [hch' k0, if_neg hk0s] at h2
          simp at h2
        have hins : splitInsert t st ⟨q, C, k, r, payload k⟩ =
            some (setGroup q g' st, none) := by
          unfold splitInsert
          rw [← hgdef, hgi]
          simp [hnotall]
        rw [List.map_cons, splitExec_cons_pkt, hins]
        dsimp only
        rw [hset g', ih (k :: seen) [(q, g')] (by simp [eraseGroup]) (by simp [setGroup])
          (fun t' k' => by
            refine ⟨?_, ?_, ?_⟩
            · simpa [groupAt, lookupGroup, hgdef2] using hgc
            · simpa [groupAt, lookupGroup, hgdef2] using hgr
            · intro k''
              simpa [groupAt, lookupGroup] using hch' k'')
          (by
            intro k' hk'
            rcases List.mem_cons.mp hk' with rfl | h
            · exact hkC
            · exact hseenC k' h)
          (fun a ha => hnums a (List.mem_cons_of_mem _ ha))
          (fun k' hk' => by
            rcases hcover k' hk' with h | h
            · exact Or.inl (List.mem_cons_of_mem _ h)
            · simp only [List.map_cons, List.mem_cons] at h
              rcases h with rfl | h
              · exact Or.inl (List.mem_cons_self _ _)
              · exact Or.inr (by
                  simp only [List.map_cons, List.mem_cons]
                  exact h))
          hlast']
        rfl

/-- C5 (counterexample): "duplicates allowed" fails once a duplicate
arrives after the group completed.  A 1-chunk split group delivered twice
(seqnum 5, payload `[42]`) invokes the data-received callback twice: the
group is erased on completion, so the duplicate re-creates it and
completes it again. -/
theorem split_duplicate_redelivery_cex :
    splitExec [] [SplitOp.pkt 0 ⟨5, 1, 0, false, [42]⟩,
      SplitOp.pkt 1 ⟨5, 1, 0, false, [42]⟩] =
      some ([], [[42], [42]]) ∧ ([[42], [42]] : List (List Nat)).length ≠ 1 := by
  constructor
  · rfl
  · decide

/-- C5 (amended): for a split group of `C` chunks (common seqnum `q`,
common `chunk_count = C`, parser-valid `chunk_num < C`, common reliable
flag), if all `C` chunks arrive in any order — duplicates allowed, no
timeout firing in between — *and the group completes exactly at the last
arrival* (no chunk arrives after completion), then the data-received
callback is invoked exactly once, with the concatenation of the chunk
payloads in ascending chunk-number order, and the group is removed from
the buffer. -/
theorem split_reassembly (q C : Nat) (r : Bool) (payload : Nat → List Nat)
    (arr : List (Nat × Nat))
    (hnums : ∀ a ∈ arr, a.2 < C)
    (hcover : ∀ k, k < C → k ∈ arr.map Prod.snd)
    (hlast : ¬ ∀ k, k < C → k ∈ arr.dropLast.map Prod.snd) :
    splitExec [] (arr.map fun a => SplitOp.pkt a.1 ⟨q, C, a.2, r, payload a.2⟩) =
      some ([], [((List.range C).map payload).flatten]) := by
  refine splitExec_group q C r payload arr [] [] rfl (fun g' => rfl) ?_ (by simp)
    hnums ?_ ?_
  · intro t' k'
    refine ⟨rfl, rfl, fun k'' => ?_⟩
    simp [groupAt, lookupGroup]
  · intro k hk
    exact Or.inr (hcover k hk)
  · intro hcon
    apply hlast
    intro k hk
    rcases hcon k hk with h | h
    · simp at h
    · exact h

/-- Witness for `split_reassembly`: 3 chunks with seqnum 7, payloads
`[10], [11], [12]`, arriving in chunk order `2, 0, 1`: one delivery of
`[10, 11, 12]`. -/
theorem split_reassembly_witness :
    splitExec [] ([(0, 2), (1, 0), (2, 1)].map fun a : Nat × Nat =>
      SplitOp.pkt a.1 ⟨7, 3, a.2, false, (fun k => [10 + k]) a.2⟩) =
      some ([], [[10, 11, 12]]) := by
  have h := split_reassembly 7 3 false (fun k => [10 + k]) [(0, 2), (1, 0), (2, 1)]
    (by decide) (by decide) (by decide)
  exact h.trans rfl

/-! ### Split buffer invariants and timeout eviction (C7) -/

/-- Buffer keys are unique, and reliable groups never have an armed
deadline (`resetTimeout` is a no-op for them). -/
def SplitInv (st : List (Nat × SplitGroup)) : Prop :=
  (st.map Prod.fst).Nodup ∧
  ∀ e ∈ st, e.2.reliable = true → e.2.deadline = none

theorem lookupGroup_eq_none {q : Nat} {st : List (Nat × SplitGroup)}
    (h : q ∉ st.map Prod.fst) : lookupGroup q st = none := by
  induction st with
  | nil => rfl
  | cons e rest ih =>
    obtain ⟨k', g'⟩ := e
    simp only [List.map_cons, List.mem_cons] at h
    push_neg at h
    simp only [lookupGroup, if_neg h.1]
    exact ih h.2

theorem lookupGroup_mem {q : Nat} {st : List (Nat × SplitGroup)}
    {g : SplitGroup} (h : lookupGroup q st = some g) : (q, g) ∈ st := by
  induction st with
  | nil => simp [lookupGroup] at h
  | cons e rest ih =>
    obtain ⟨k', g'⟩ := e
    by_cases hk : q = k'
    · simp only [lookupGroup, if_pos hk] at h
      subst hk
      simp at h
      simp [h]
    · simp only [lookupGroup, if_neg hk] at h
      exact List.mem_cons_of_mem _ (ih h)

theorem setGroup_fst_mem (k : Nat) (g : SplitGroup)
    (st : List (Nat × SplitGroup)) (x : Nat) :
    x ∈ (setGroup k g st).map Prod.fst ↔ x = k ∨ x ∈ st.map Prod.fst := by
  induction st with
  | nil => simp [setGroup]
  | cons e rest ih =>
    obtain ⟨k', g'⟩ := e
    by_cases hk : k = k'
    · subst hk
      simp [setGroup]
    · simp only [setGroup, if_neg hk, List.map_cons, List.mem_cons, ih]
      tauto

theorem setGroup_nodup (k : Nat) (g : SplitGroup)
    {st : List (Nat × SplitGroup)} (h : (st.map Prod.fst).Nodup) :
    ((setGroup k g st).map Prod.fst).Nodup := by
  induction st with
  | nil => simp [setGroup]
  | cons e rest ih =>
    obtain ⟨k', g'⟩ := e
    simp only [List.map_cons, List.nodup_cons] at h
    by_cases hk : k = k'
    · subst hk
      have hs : setGroup k g ((k, g') :: rest) = (k, g) :: rest := by
        simp [setGroup]
      rw [hs, List.map_cons, List.nodup_cons]
      exact h
    · have hs : setGroup k g ((k', g') :: rest) = (k', g') :: setGroup k g rest := by
        simp [setGroup, hk]
      rw [hs, List.map_cons, List.nodup_cons]
      refine ⟨?_, ih h.2⟩
      rw [setGroup_fst_mem]
      push_neg
      exact ⟨fun hkk => hk hkk.symm, h.1⟩

theorem setGroup_mem {k : Nat} {g : SplitGroup} {st : List (Nat × SplitGroup)}
    {e : Nat × SplitGroup} (h : e ∈ setGroup k g st) :
    e = (k, g) ∨ e ∈ st := by
  induction st with
  | nil => simpa [setGroup] using h
  | cons e' rest ih =>
    obtain ⟨k', g'⟩ := e'
    by_cases hk : k = k'
    · subst hk
      have hs : setGroup k g ((k, g') :: rest) = (k, g) :: rest := by
        simp [setGroup]
      rw [hs] at h
      rcases List.mem_cons.mp h with h | h
      · exact Or.inl h
      · exact Or.inr (List.mem_cons_of_mem _ h)
    · have hs : setGroup k g ((k', g') :: rest) = (k', g') :: setGroup k g rest := by
        simp [setGroup, hk]
      rw [hs] at h
      rcases List.mem_cons.mp h with h | h
      · exact Or.inr (by rw [h]; exact List.mem_cons_self _ _)
      · rcases ih h with h2 | h2
        · exact Or.inl h2
        · exact Or.inr (List.mem_cons_of_mem _ h2)

theorem eraseGroup_sublist (k : Nat) (st : List (Nat × SplitGroup)) :
    (eraseGroup k st).Sublist st := by
  induction st with
  | nil => simp [eraseGroup]
  | cons e rest ih =>
    obtain ⟨k', g'⟩ := e
    by_cases hk : k = k'
    · simp only [eraseGroup, if_pos hk]
      exact List.sublist_cons_self _ _
    · simp only [eraseGroup, if_neg hk]
      exact ih.cons₂ _

/-- Creation and `IncomingSplitPacket::insert` preserve "reliable groups
are never armed". -/
theorem groupAt_reliable_deadline {now : Nat} {st : List (Nat × SplitGroup)}
    {p : SplitPkt} (hinv : ∀ e ∈ st, e.2.reliable = true → e.2.deadline = none) :
    (groupAt now st p).reliable = true → (groupAt now st p).deadline = none := by
  unfold groupAt
  cases hl : lookupGroup p.seqnum st with
  | none =>
    intro h
    simp only at h ⊢
    rw [if_pos]
    simpa using h
  | some g =>
    intro h
    exact hinv (p.seqnum, g) (lookupGroup_mem hl) h

theorem groupInsert_reliable_deadline {now : Nat} {g sp : SplitGroup}
    {p : SplitPkt} (h : groupInsert now g p = some sp)
    (hg : g.reliable = true → g.deadline = none) :
    sp.reliable = true → sp.deadline = none := by
  unfold groupInsert at h
  by_cases h1 : ¬ p.chunk_num < g.chunk_count
  · rw [if_pos h1] at h; cases h
  · rw [if_neg h1] at h
    by_cases h2 : g.chunk_count ≠ p.chunk_count
    · rw [if_pos h2] at h
      cases h; exact hg
    · rw [if_neg h2] at h
      by_cases h3 : (g.chunks p.chunk_num).isSome
      · rw [if_pos h3] at h
        cases h; exact hg
      · rw [if_neg h3] at h
        cases h
        intro hrel
        dsimp only at hrel ⊢
        rw [if_pos hrel]
        exact hg hrel

theorem splitInsert_inv {now : Nat} {st st' : List (Nat × SplitGroup)}
    {p : SplitPkt} {d : Option (List Nat)}
    (h : splitInsert now st p = some (st', d)) (hinv : SplitInv st) :
    SplitInv st' := by
  unfold splitInsert at h
  cases hgi : groupInsert now (groupAt now st p) p with
  | none => rw [hgi] at h; cases h
  | some sp =>
    rw [hgi] at h
    dsimp only at h
    have hsp : sp.reliable = true → sp.deadline = none :=
      groupInsert_reliable_deadline hgi (groupAt_reliable_deadline hinv.2)
    by_cases hall : allReceived sp = true
    · rw [if_pos hall] at h
      cases h
      constructor
      · exact hinv.1.sublist ((eraseGroup_sublist _ _).map _)
      · exact fun e he => hinv.2 e ((eraseGroup_sublist _ _).mem he)
    · rw [if_neg hall] at h
      cases h
      constructor
      · exact setGroup_nodup _ _ hinv.1
      · intro e he
        rcases setGroup_mem he with rfl | he
        · exact hsp
        · exact hinv.2 e he

theorem splitExec_inv :
    ∀ (ops : List SplitOp) (st stF : List (Nat × SplitGroup))
      (ds : List (List Nat)),
      splitExec st ops = some (stF, ds) → SplitInv st → SplitInv stF := by
  intro ops
  induction ops with
  | nil =>
    intro st stF ds h hinv
    simp only [splitExec] at h
    cases h
    exact hinv
  | cons op rest ih =>
    intro st stF ds h hinv
    cases op with
    | pkt now p =>
      simp only [splitExec] at h
      cases hins : splitInsert now st p with
      | none => rw [hins] at h; cases h
      | some r =>
        obtain ⟨st1, d⟩ := r
        rw [hins] at h
        dsimp only at h
        rw [Option.map_eq_some'] at h
        obtain ⟨r2, hrest, hfr⟩ := h
        have h1 : r2.1 = stF := congrArg Prod.fst hfr
        rw [← h1]
        exact ih st1 r2.1 r2.2 (by rw [hrest]) (splitInsert_inv hins hinv)
    | timeouts now =>
      simp only [splitExec] at h
      rw [Option.map_eq_some'] at h
      obtain ⟨r2, hrest, hfr⟩ := h
      have h1 : r2.1 = stF := congrArg Prod.fst hfr
      rw [← h1]
      refine ih _ r2.1 r2.2 (by rw [hrest]) ⟨?_, ?_⟩
      · exact hinv.1.sublist ((List.filter_sublist _).map _)
      · exact fun e he => hinv.2 e ((List.filter_sublist _).mem he)

theorem lookup_filter_none :
    ∀ (st : List (Nat × SplitGroup)) (q : Nat) (g : SplitGroup)
      (p : Nat × SplitGroup → Bool),
      (st.map Prod.fst).Nodup → lookupGroup q st = some g →
      p (q, g) = false → lookupGroup q (st.filter p) = none := by
  intro st
  induction st with
  | nil => intro q g p _ hq; simp [lookupGroup] at hq
  | cons e rest ih =>
    intro q g p hnd hq hp
    obtain ⟨k', g'⟩ := e
    simp only [List.map_cons, List.nodup_cons] at hnd
    by_cases hk : q = k'
    · subst hk
      have hq' : g' = g := by simpa [lookupGroup] using hq
      subst hq'
      rw [List.filter_cons, if_neg (by simp [hp])]
      apply lookupGroup_eq_none
      intro hm
      exact hnd.1 (((List.filter_sublist _).map Prod.fst).mem hm)
    · simp only [lookupGroup, if_neg hk] at hq
      rw [List.filter_cons]
      split_ifs with hpk
      · simp only [lookupGroup, if_neg hk]
        exact ih q g p hnd.2 hq hp
      · exact ih q g p hnd.2 hq hp

/-- C7: in every state reachable from an empty split buffer, an
unreliable group whose last accepted chunk re-armed its deadline to
`tLast + SPLIT_TIMEOUT_MS` is evicted by the first `processTimeouts`
running strictly later than that deadline (so whenever more than
`SPLIT_TIMEOUT_MS` elapses after the last accepted chunk), the
data-received callback is not invoked by the eviction, and reliable
groups never have a timeout armed at all. -/
theorem split_timeout_eviction (ops : List SplitOp)
    (stF : List (Nat × SplitGroup)) (ds : List (List Nat))
    (hreach : splitExec [] ops = some (stF, ds))
    (q tLast now : Nat) (g : SplitGroup)
    (hq : lookupGroup q stF = some g)
    (hrel : g.reliable = false)
    (hdl : g.deadline = some (tLast + SPLIT_TIMEOUT_MS))
    (hnow : tLast + SPLIT_TIMEOUT_MS < now) :
    lookupGroup q (splitProcessTimeouts now stF).1 = none ∧
    (splitProcessTimeouts now stF).2 = [] ∧
    (∀ e ∈ stF, e.2.reliable = true → e.2.deadline = none) := by
  have hinv := splitExec_inv ops [] stF ds hreach ⟨by simp, by simp⟩
  refine ⟨?_, rfl, hinv.2⟩
  apply lookup_filter_none stF q g _ hinv.1 hq
  simp [hdl, hnow]

/-- Witness for `split_timeout_eviction`: one chunk of an unreliable
2-chunk group arrives at time 0; `processTimeouts` at time 31 (more than
`SPLIT_TIMEOUT_MS = 30` later) evicts the group. -/
theorem split_timeout_eviction_witness :
    lookupGroup 5 (splitProcessTimeouts 31
      [(5, { chunk_count := 2, reliable := false,
             chunks := fun k => if k = 0 then some [1] else none,
             deadline := some (0 + SPLIT_TIMEOUT_MS) })]).1 = none := by
  exact (split_timeout_eviction [SplitOp.pkt 0 ⟨5, 2, 0, false, [1]⟩] _ _ rfl
    5 0 31 _ rfl rfl rfl (by decide)).1

/-- C8 (code bug): a packet routed to an existing group with a different
`chunk_count` whose `chunk_num` is not below the group's *recorded*
`chunk_count` hits `sanity_check(chunk_num < m_chunk_count)` (split.cpp
line 46), which precedes the mismatch check of line 47, and aborts the
process instead of logging and ignoring the packet.  (Third conjunct: for
a mismatched packet whose `chunk_num` is below the recorded count the
claimed log-and-ignore behaviour does hold: the group, its chunks and the
buffer are unchanged and nothing is delivered.) -/
theorem split_mismatch_sanity_abort :
    splitInsert 0
      [(7, { chunk_count := 2, reliable := true,
             chunks := fun k => if k = 0 then some [1] else none,
             deadline := none })]
      ⟨7, 3, 2, true, [9]⟩ = none ∧
    (2 : Nat) < 3 ∧
    splitInsert 0
      [(7, { chunk_count := 2, reliable := true,
             chunks := fun k => if k = 0 then some [1] else none,
             deadline := none })]
      ⟨7, 3, 1, true, [9]⟩ =
      some ([(7, { chunk_count := 2, reliable := true,
                   chunks := fun k => if k = 0 then some [1] else none,
                   deadline := none })], none) := by
  refine ⟨rfl, by decide, rfl⟩

/-! ## Wire parser (src/network/packet.cpp lines 9-99, BinReader)

A datagram is a byte list; `BinReader::_read` throws
`ParseError("BinReader: Unexpected EOF m_size=%zu", m_size)` when a read
would pass the end of the buffer, so each read primitive returns the
(big-endian) value and the new position, or `none` on EOF.  `ParseError`
enumerates the throw sites of `ReceivedPacket::parse`. -/

/-- Modelled from the spec: the "protocol magic" / "configured constant"
`PROTOCOL_ID` lives in `network/networkprotocol.h`, which is not part of
the sources; only its role (a fixed 32-bit constant the base header must
match) matters here. -/
def PROTOCOL_ID : Nat := 0x4f457403

def CHANNEL_COUNT : Nat := 3

def PACKET_TYPE_CONTROL : Nat := 0
def PACKET_TYPE_ORIGINAL : Nat := 1
def PACKET_TYPE_SPLIT : Nat := 2
def PACKET_TYPE_RELIABLE : Nat := 3
def PACKET_TYPE_MAX : Nat := 4

def CONTROLTYPE_ACK : Nat := 0
def CONTROLTYPE_SET_PEER_ID : Nat := 1
def CONTROLTYPE_PING : Nat := 2
def CONTROLTYPE_DISCO : Nat := 3

def readU8 (d : List Nat) (pos : Nat) : Option (Nat × Nat) :=
  if pos + 1 ≤ d.length then some (d.getD pos 0, pos + 1) else none

def readU16 (d : List Nat) (pos : Nat) : Option (Nat × Nat) :=
  if pos + 2 ≤ d.length then
    some (d.getD pos 0 * 256 + d.getD (pos + 1) 0, pos + 2)
  else none

def readU32 (d : List Nat) (pos : Nat) : Option (Nat × Nat) :=
  if pos + 4 ≤ d.length then
    some (((d.getD pos 0 * 256 + d.getD (pos + 1) 0) * 256 +
      d.getD (pos + 2) 0) * 256 + d.getD (pos + 3) 0, pos + 4)
  else none

inductive ParseError where
  | unexpectedEOF (size : Nat)
  | badProtocolId (got : Nat)
  | invalidChannel (ch : Nat)
  | invalidRawType (t : Nat)
  | invalidControlType (c : Nat)
  | nestedReliable
  | chunkNumTooBig (num count : Nat)
  | invalidPacketType (t : Nat)
  | emptyContents
  deriving Repr, DecidableEq

inductive RPT where
  | original | ack | setPeerId | ping | disco | split
  deriving Repr, DecidableEq

/-- The fields of `ReceivedPacket` that `parse` fills in.  The struct is
zero-initialized by `ReceivedPacket::make()`, so fields the taken branch
does not write hold `0` / `false`.  `contents`/`contents_size` are the
residual slice `[contents_pos, contents_pos + contents_size)` of the
datagram. -/
structure ParsedPacket where
  protocol_id : Nat
  peer_id : Nat
  channelnum : Nat
  type : RPT
  is_reliable : Bool
  reliable_seqnum : Nat
  ack_seqnum : Nat
  new_peer_id : Nat
  split_seqnum : Nat
  split_chunk_count : Nat
  split_chunk_num : Nat
  contents_pos : Nat
  contents_size : Nat
  deriving Repr, DecidableEq

def basePacket (protocol_id peer_id channelnum : Nat) (is_reliable : Bool)
    (rseq : Nat) (ty : RPT) (pos len : Nat) : ParsedPacket :=
  { protocol_id := protocol_id, peer_id := peer_id, channelnum := channelnum,
    type := ty, is_reliable := is_reliable, reliable_seqnum := rseq,
    ack_seqnum := 0, new_peer_id := 0, split_seqnum := 0,
    split_chunk_count := 0, split_chunk_num := 0,
    contents_pos := pos, contents_size := len - pos }

/-- The `switch (raw_type)` of `ReceivedPacket::parse` (lines 36-98),
shared by the plain and the reliable-envelope paths, including the final
`cannot_be_empty` check. -/
def parseBody (d : List Nat) (pos : Nat) (protocol_id peer_id channelnum : Nat)
    (is_reliable : Bool) (rseq : Nat) (raw_type : Nat) :
    Except ParseError ParsedPacket :=
  if raw_type = PACKET_TYPE_CONTROL then
    match readU8 d pos with
    | none => .error (.unexpectedEOF d.length)
    | some (control_type, pos) =>
      if control_type = CONTROLTYPE_ACK then
        match readU16 d pos with
        | none => .error (.unexpectedEOF d.length)
        | some (seqnum, pos) =>
          .ok { basePacket protocol_id peer_id channelnum is_reliable rseq
            RPT.ack pos d.length with ack_seqnum := seqnum }
      else if control_type = CONTROLTYPE_SET_PEER_ID then
        match readU16 d pos with
        | none => .error (.unexpectedEOF d.length)
        | some (new_peer_id, pos) =>
          .ok { basePacket protocol_id peer_id channelnum is_reliable rseq
            RPT.setPeerId pos d.length with new_peer_id := new_peer_id }
      else if control_type = CONTROLTYPE_PING then
        .ok (basePacket protocol_id peer_id channelnum is_reliable rseq
          RPT.ping pos d.length)
      else if control_type = CONTROLTYPE_DISCO then
        .ok (basePacket protocol_id peer_id channelnum is_reliable rseq
          RPT.disco pos d.length)
      else
        .error (.invalidControlType control_type)
  else if raw_type = PACKET_TYPE_ORIGINAL then
    if d.length - pos = 0 then .error .emptyContents
    else .ok (basePacket protocol_id peer_id channelnum is_reliable rseq
      RPT.original pos d.length)
  else if raw_type = PACKET_TYPE_SPLIT then
    match readU16 d pos with
    | none => .error (.unexpectedEOF d.length)
    | some (sseq, pos) =>
      match readU16 d pos with
      | none => .error (.unexpectedEOF d.length)
      | some (chunk_count, pos) =>
        match readU16 d pos with
        | none => .error (.unexpectedEOF d.length)
        | some (chunk_num, pos) =>
          if chunk_num ≥ chunk_count then
            .error (.chunkNumTooBig chunk_num chunk_count)
          else if d.length - pos = 0 then .error .emptyContents
          else
            .ok { basePacket protocol_id peer_id channelnum is_reliable rseq
              RPT.split pos d.length with
              split_seqnum := sseq, split_chunk_count := chunk_count,
              split_chunk_num := chunk_num }
  else if raw_type = PACKET_TYPE_RELIABLE then
    .error .nestedReliable
  else
    .error (.invalidPacketType raw_type)

/-- `ReceivedPacket::parse` on a datagram `(bytes, len)`. -/
def parse (d : List Nat) : Except ParseError ParsedPacket :=
  match readU32 d 0 with
  | none => .error (.unexpectedEOF d.length)
  | some (protocol_id, pos) =>
    if protocol_id ≠ PROTOCOL_ID then .error (.badProtocolId protocol_id)
    else match readU16 d pos with
    | none => .error (.unexpectedEOF d.length)
    | some (peer_id, pos) =>
      match readU8 d pos with
      | none => .error (.unexpectedEOF d.length)
      | some (channelnum, pos) =>
        if channelnum ≥ CHANNEL_COUNT then .error (.invalidChannel channelnum)
        else match readU8 d pos with
        | none => .error (.unexpectedEOF d.length)
        | some (raw_type, pos) =>
          if raw_type ≥ PACKET_TYPE_MAX then .error (.invalidRawType raw_type)
          else if raw_type = PACKET_TYPE_RELIABLE then
            match readU16 d pos with
            | none => .error (.unexpectedEOF d.length)
            | some (seqnum, pos) =>
              match readU8 d pos with
              | none => .error (.unexpectedEOF d.length)
              | some (inner_type, pos) =>
                parseBody d pos protocol_id peer_id channelnum true seqnum
                  inner_type
          else
            parseBody d pos protocol_id peer_id channelnum false 0 raw_type

/-! ### Spec-side grammar (refinement target)

Modelled from the spec: §4.3 "Wire Parser" and §6 "Wire layout" describe
the accepted datagrams and their decoded fields; `specParse` follows that
text, returning `none` for every rejected datagram (the spec does not
prescribe error payloads).  It is compared against `parse` in
`parse_matches_grammar`. -/

structure SpecView where
  peer_id : Nat
  channel : Nat
  is_reliable : Bool
  rseq : Nat
  tag : RPT
  ack_seqnum : Nat
  new_peer_id : Nat
  split_seqnum : Nat
  split_chunk_count : Nat
  split_chunk_num : Nat
  payload : List Nat
  deriving Repr, DecidableEq

/-- Modelled from the spec, §4.3: dispatch on the (inner) type tag.
`CONTROL`: read `u8 control_type`, then `ACK → u16 seqnum`,
`SET_PEER_ID → u16 new_peer_id`, `PING`/`DISCO` → nothing, unknown
control types rejected.  `ORIGINAL`: non-empty payload.  `SPLIT`:
`u16 seqnum`, `u16 chunk_count`, `u16 chunk_num`, reject
`chunk_num ≥ chunk_count`, non-empty payload.  Unreachable branches
(`RELIABLE` again, unknown tags) are rejected.  The residual bytes are
the payload. -/
def mkView (peer_id channel : Nat) (is_reliable : Bool) (rseq : Nat)
    (tag : RPT) (ack_seqnum new_peer_id sseq chunk_count chunk_num : Nat)
    (payload : List Nat) : SpecView :=
  ⟨peer_id, channel, is_reliable, rseq, tag, ack_seqnum, new_peer_id,
    sseq, chunk_count, chunk_num, payload⟩

def specDispatch (d : List Nat) (pos : Nat) (peer_id channel : Nat)
    (is_reliable : Bool) (rseq : Nat) (tag : Nat) : Option SpecView :=
  if tag = PACKET_TYPE_CONTROL then
    match readU8 d pos with
    | none => none
    | some (control_type, pos) =>
      if control_type = CONTROLTYPE_ACK then
        match readU16 d pos with
        | none => none
        | some (seqnum, pos) =>
          some (mkView peer_id channel is_reliable rseq RPT.ack
            seqnum 0 0 0 0 (d.drop pos))
      else if control_type = CONTROLTYPE_SET_PEER_ID then
        match readU16 d pos with
        | none => none
        | some (npid, pos) =>
          some (mkView peer_id channel is_reliable rseq RPT.setPeerId
            0 npid 0 0 0 (d.drop pos))
      else if control_type = CONTROLTYPE_PING then
        some (mkView peer_id channel is_reliable rseq RPT.ping
          0 0 0 0 0 (d.drop pos))
      else if control_type = CONTROLTYPE_DISCO then
        some (mkView peer_id channel is_reliable rseq RPT.disco
          0 0 0 0 0 (d.drop pos))
      else none
  else if tag = PACKET_TYPE_ORIGINAL then
    if d.length - pos = 0 then none
    else some (mkView peer_id channel is_reliable rseq RPT.original
      0 0 0 0 0 (d.drop pos))
  else if tag = PACKET_TYPE_SPLIT then
    match readU16 d pos with
    | none => none
    | some (sseq, pos) =>
      match readU16 d pos with
      | none => none
      | some (chunk_count, pos) =>
        match readU16 d pos with
        | none => none
        | some (chunk_num, pos) =>
          if chunk_num ≥ chunk_count then none
          else if d.length - pos = 0 then none
          else some (mkView peer_id channel is_reliable rseq RPT.split
            0 0 sseq chunk_count chunk_num (d.drop pos))
  else none

/-- Modelled from the spec, §4.3/§6: base header `u32 protocol_id`,
`u16 peer_id`, `u8 channel` (reject wrong magic or `channel ≥
CHANNEL_COUNT`); `u8 packet_type ∈ {0,1,2,3}` (reject others); if
`RELIABLE`, consume `u16 seqnum`, set `is_reliable`, and read the inner
`u8 packet_type`, which must not itself be `RELIABLE`; reads past the
buffer are rejected ("unexpected EOF"). -/
def specParse (d : List Nat) : Option SpecView :=
  match readU32 d 0 with
  | none => none
  | some (protocol_id, pos) =>
    if protocol_id ≠ PROTOCOL_ID then none
    else match readU16 d pos with
    | none => none
    | some (peer_id, pos) =>
      match readU8 d pos with
      | none => none
      | some (channel, pos) =>
        if channel ≥ CHANNEL_COUNT then none
        else match readU8 d pos with
        | none => none
        | some (packet_type, pos) =>
          if packet_type ≥ PACKET_TYPE_MAX then none
          else if packet_type = PACKET_TYPE_RELIABLE then
            match readU16 d pos with
            | none => none
            | some (seqnum, pos) =>
              match readU8 d pos with
              | none => none
              | some (inner_type, pos) =>
                specDispatch d pos peer_id channel true seqnum inner_type
          else
            specDispatch d pos peer_id channel false 0 packet_type

/-- Projection of a parsed packet to its grammar-level view; the payload
is the residual slice `contents`/`contents_size`. -/
def toView (p : ParsedPacket) (d : List Nat) : SpecView :=
  { peer_id := p.peer_id, channel := p.channelnum,
    is_reliable := p.is_reliable, rseq := p.reliable_seqnum, tag := p.type,
    ack_seqnum := p.ack_seqnum, new_peer_id := p.new_peer_id,
    split_seqnum := p.split_seqnum, split_chunk_count := p.split_chunk_count,
    split_chunk_num := p.split_chunk_num,
    payload := (d.drop p.contents_pos).take p.contents_size }

theorem drop_take_residual (d : List Nat) (pos : Nat) :
    (d.drop pos).take (d.length - pos) = d.drop pos := by
  apply List.take_of_length_le
  simp

theorem readU8_pos {d : List Nat} {pos v pos' : Nat}
    (h : readU8 d pos = some (v, pos')) : pos' = pos + 1 ∧ pos' ≤ d.length := by
  unfold readU8 at h
  split_ifs at h with hc
  cases h
  omega

theorem readU16_pos {d : List Nat} {pos v pos' : Nat}
    (h : readU16 d pos = some (v, pos')) : pos' = pos + 2 ∧ pos' ≤ d.length := by
  unfold readU16 at h
  split_ifs at h with hc
  cases h
  omega

theorem readU32_pos {d : List Nat} {pos v pos' : Nat}
    (h : readU32 d pos = some (v, pos')) : pos' = pos + 4 ∧ pos' ≤ d.length := by
  unfold readU32 at h
  split_ifs at h with hc
  cases h
  omega

/-- Correctness of the `switch (raw_type)` body against the spec's
dispatch: success yields exactly the grammar-specified view with the
residual slice in bounds; failure happens exactly when the grammar
rejects, with EOF errors reporting the declared length. -/
theorem parseBody_matches (d : List Nat) (pos protocol_id peer_id channelnum : Nat)
    (is_reliable : Bool) (rseq : Nat) (raw_type : Nat) (hpos : pos ≤ d.length) :
    (match parseBody d pos protocol_id peer_id channelnum is_reliable rseq
        raw_type with
      | .ok p =>
        specDispatch d pos peer_id channelnum is_reliable rseq raw_type =
            some (toView p d) ∧
          p.contents_pos + p.contents_size = d.length ∧
          p.contents_pos ≤ d.length
      | .error e =>
        specDispatch d pos peer_id channelnum is_reliable rseq raw_type =
            none ∧
          ∀ n, e = ParseError.unexpectedEOF n → n = d.length) := by
  unfold parseBody specDispatch
  by_cases h0 : raw_type = PACKET_TYPE_CONTROL
  · rw [if_pos h0, if_pos h0]
    cases hct : readU8 d pos with
    | none => simp
    | some p1 =>
      obtain ⟨ct, pos1⟩ := p1
      obtain ⟨-, hp1⟩ := readU8_pos hct
      dsimp only
      by_cases hA : ct = CONTROLTYPE_ACK
      · rw [if_pos hA, if_pos hA]
        cases hsq : readU16 d pos1 with
        | none => simp
        | some p2 =>
          obtain ⟨sq, pos2⟩ := p2
          obtain ⟨-, hp2⟩ := readU16_pos hsq
          dsimp only
          refine ⟨?_, by simp [basePacket]; omega, by simp [basePacket]; omega⟩
          simp [toView, basePacket, mkView, drop_take_residual]
      · rw [if_neg hA, if_neg hA]
        by_cases hS : ct = CONTROLTYPE_SET_PEER_ID
        · rw [if_pos hS, if_pos hS]
          cases hsq : readU16 d pos1 with
          | none => simp
          | some p2 =>
            obtain ⟨npid, pos2⟩ := p2
            obtain ⟨-, hp2⟩ := readU16_pos hsq
            dsimp only
            refine ⟨?_, by simp [basePacket]; omega, by simp [basePacket]; omega⟩
            simp [toView, basePacket, mkView, drop_take_residual]
        · rw [if_neg hS, if_neg hS]
          by_cases hP : ct = CONTROLTYPE_PING
          · rw [if_pos hP, if_pos hP]
            dsimp only
            refine ⟨?_, by simp [basePacket]; omega, by simp [basePacket]; omega⟩
            simp [toView, basePacket, mkView, drop_take_residual]
          · rw [if_neg hP, if_neg hP]
            by_cases hD : ct = CONTROLTYPE_DISCO
            · rw [if_pos hD, if_pos hD]
              dsimp only
              refine ⟨?_, by simp [basePacket]; omega, by simp [basePacket]; omega⟩
              simp [toView, basePacket, mkView, drop_take_residual]
            · rw [if_neg hD, if_neg hD]
              simp
  · rw [if_neg h0, if_neg h0]
    by_cases h1 : raw_type = PACKET_TYPE_ORIGINAL
    · rw [if_pos h1, if_pos h1]
      by_cases hemp : d.length - pos = 0
      · rw [if_pos hemp, if_pos hemp]
        simp
      · rw [if_neg hemp, if_neg hemp]
        dsimp only
        refine ⟨?_, by simp [basePacket]; omega, by simp [basePacket]; omega⟩
        simp [toView, basePacket, mkView, drop_take_residual]
    · rw [if_neg h1, if_neg h1]
      by_cases h2 : raw_type = PACKET_TYPE_SPLIT
      · rw [if_pos h2, if_pos h2]
        cases hq1 : readU16 d pos with
        | none => simp
        | some p1 =>
          obtain ⟨sseq, pos1⟩ := p1
          dsimp only
          cases hq2 : readU16 d pos1 with
          | none => simp
          | some p2 =>
            obtain ⟨ccount, pos2⟩ := p2
            dsimp only
            cases hq3 : readU16 d pos2 with
            | none => simp
            | some p3 =>
              obtain ⟨cnum, pos3⟩ := p3
              obtain ⟨-, hp3⟩ := readU16_pos hq3
              dsimp only
              by_cases hge : cnum ≥ ccount
              · rw [if_pos hge, if_pos hge]
                simp
              · rw [if_neg hge, if_neg hge]
                by_cases hemp : d.length - pos3 = 0
                · rw [if_pos hemp, if_pos hemp]
                  simp
                · rw [if_neg hemp, if_neg hemp]
                  dsimp only
                  refine ⟨?_, by simp [basePacket]; omega, by simp [basePacket]; omega⟩
                  simp [toView, basePacket, mkView, drop_take_residual]
      · rw [if_neg h2, if_neg h2]
        by_cases h3 : raw_type = PACKET_TYPE_RELIABLE
        · rw [if_pos h3]
          simp
        · rw [if_neg h3]
          simp

/-- C4: `ReceivedPacket::parse` always terminates with either a parsed
packet or a structured `ParseError` and never reads outside the buffer
(every read is bounds-checked, and on success the residual slice
`contents`/`contents_size` lies within `[0, len]`); it fails exactly when
the datagram violates the wire grammar (wrong `protocol_id`,
`channel ≥ CHANNEL_COUNT`, type tag `≥ PACKET_TYPE_MAX`, a RELIABLE
envelope nesting another RELIABLE, unknown control type,
`chunk_num ≥ chunk_count`, empty payload for ORIGINAL or SPLIT, or a
field read past `len`, the latter reported as unexpected-EOF carrying the
declared length); on success the header fields equal the grammar's and
`contents` is the residual payload. -/
theorem parse_matches_grammar (d : List Nat) :
    (match parse d with
      | .ok p => specParse d = some (toView p d) ∧
          p.contents_pos + p.contents_size = d.length ∧
          p.contents_pos ≤ d.length
      | .error e => specParse d = none ∧
          ∀ n, e = ParseError.unexpectedEOF n → n = d.length) := by
  unfold parse specParse
  cases h32 : readU32 d 0 with
  | none => simp
  | some p1 =>
    obtain ⟨pid, pos1⟩ := p1
    dsimp only
    by_cases hpid : pid ≠ PROTOCOL_ID
    · rw [if_pos hpid, if_pos hpid]
      simp
    · rw [if_neg hpid, if_neg hpid]
      cases h16 : readU16 d pos1 with
      | none => simp
      | some p2 =>
        obtain ⟨peer, pos2⟩ := p2
        dsimp only
        cases h8 : readU8 d pos2 with
        | none => simp
        | some p3 =>
          obtain ⟨ch, pos3⟩ := p3
          dsimp only
          by_cases hch : ch ≥ CHANNEL_COUNT
          · rw [if_pos hch, if_pos hch]
            simp
          · rw [if_neg hch, if_neg hch]
            cases h8b : readU8 d pos3 with
            | none => simp
            | some p4 =>
              obtain ⟨rt, pos4⟩ := p4
              obtain ⟨-, hp4⟩ := readU8_pos h8b
              dsimp only
              by_cases hrt : rt ≥ PACKET_TYPE_MAX
              · rw [if_pos hrt, if_pos hrt]
                simp
              · rw [if_neg hrt, if_neg hrt]
                by_cases hrel : rt = PACKET_TYPE_RELIABLE
                · rw [if_pos hrel, if_pos hrel]
                  cases h16b : readU16 d pos4 with
                  | none => simp
                  | some p5 =>
                    obtain ⟨rsq, pos5⟩ := p5
                    dsimp only
                    cases h8c : readU8 d pos5 with
                    | none => simp
                    | some p6 =>
                      obtain ⟨it, pos6⟩ := p6
                      obtain ⟨-, hp6⟩ := readU8_pos h8c
                      dsimp only
                      exact parseBody_matches d pos6 pid peer ch true rsq it hp6
                · rw [if_neg hrel, if_neg hrel]
                  exact parseBody_matches d pos4 pid peer ch false 0 rt hp4

/-! ## Indexed binary min-heap (src/util/binheap.h)

`BinHeap` lays its externally-owned nodes out as an implicit complete
binary tree; the file's own comment (lines 209-213) explains that node
positions are addressed by 1-based index — the path from the root to
position `i` is the binary representation of `i` after the leading 1 —
and `find_index` computes exactly that path.  The heap is therefore
modelled by its index array: `elems` holds the node at position `i`
(`1 ≤ i ≤ size`) at list offset `i - 1`; the children of position `i` are
`2i` and `2i+1` and its parent is `i / 2`.  The pointer manipulations of
`swap_nodes` (same-parent / parent-child / distant cases) amount to
exchanging the contents of two positions.  The structural parts of
`_validate` (parent pointers, back-pointers, completeness of the shape)
concern the implicit tree of the first `size` positions:
`subtreeCount`/`treeDepth` below compute the node count and depth of the
subtree rooted at a position of that tree. -/

structure BHeap (α : Type) where
  elems : List α
  size : Nat

variable {α : Type} [Inhabited α] [LinearOrder α]

/-- Value at 1-based position `i`. -/
def val (l : List α) (i : Nat) : α := l.getD (i - 1) default

def setVal (l : List α) (i : Nat) (x : α) : List α := l.set (i - 1) x

/-- Exchange the contents of positions `i` and `j` (`swap_nodes`). -/
def swapVal (l : List α) (i j : Nat) : List α :=
  setVal (setVal l i (val l j)) j (val l i)

/-- `BinHeap::sift_up`: while the node is smaller than its parent, move
it upward.  The position halves each iteration, so `fuel` (instantiated
with the starting position) bounds the iterations.  Returns the list and
the node's final position. -/
def sift_upAux : Nat → List α → Nat → List α × Nat
  | 0, l, i => (l, i)
  | fuel + 1, l, i =>
    if 1 < i ∧ val l i < val l (i / 2) then
      sift_upAux fuel (swapVal l i (i / 2)) (i / 2)
    else (l, i)

def sift_up (l : List α) (i : Nat) : List α × Nat := sift_upAux i l i

/-- `BinHeap::sift_down`: while the node is larger than one of its
children (within positions `1..n`), swap it with the smaller child.  The
position at least doubles each iteration, so `fuel` (instantiated with
`n`) bounds the iterations. -/
def sift_downAux : Nat → List α → Nat → Nat → List α × Nat
  | 0, l, i, _ => (l, i)
  | fuel + 1, l, i, n =>
    let m1 := if 2 * i ≤ n ∧ val l (2 * i) < val l i then 2 * i else i
    let m2 := if 2 * i + 1 ≤ n ∧ val l (2 * i + 1) < val l m1 then 2 * i + 1
      else m1
    if m2 = i then (l, i)
    else sift_downAux fuel (swapVal l i m2) m2 n

def sift_down (l : List α) (i n : Nat) : List α × Nat :=
  sift_downAux n l i n

/-- `BinHeap::insert`: place the node in the slot at position
`m_size + 1` (the end of the bottom row), increment the size, and sift
up. -/
def insertH (h : BHeap α) (x : α) : BHeap α :=
  { elems := (sift_up (h.elems ++ [x]) (h.size + 1)).1,
    size := h.size + 1 }

/-- `BinHeap::remove` of the node at position `i`: swap it with the
terminal node (position `m_size`) unless it is the terminal node, unlink
the terminal slot, decrement the size, then sift the moved node down and
up. -/
def removeH (h : BHeap α) (i : Nat) : BHeap α :=
  if i = h.size then
    { elems := h.elems.dropLast, size := h.size - 1 }
  else
    let l2 := (swapVal h.elems i h.size).dropLast
    let r := sift_down l2 i (h.size - 1)
    { elems := (sift_up r.1 r.2).1, size := h.size - 1 }

/-- Node count of the subtree rooted at position `i` of the implicit
complete tree on positions `1..n` (`_validate`'s `count`). -/
def subtreeCount (n : Nat) (i : Nat) : Nat :=
  if h : 1 ≤ i ∧ i ≤ n then
    1 + subtreeCount n (2 * i) + subtreeCount n (2 * i + 1)
  else 0
termination_by n + 1 - i
decreasing_by
  · omega
  · omega

/-- Depth of the subtree rooted at position `i` (`_validate`'s `depth`). -/
def treeDepth (n : Nat) (i : Nat) : Nat :=
  if h : 1 ≤ i ∧ i ≤ n then
    1 + max (treeDepth n (2 * i)) (treeDepth n (2 * i + 1))
  else 0
termination_by n + 1 - i
decreasing_by
  · omega
  · omega

/-- The heap-order part of `_validate`: no node compares less than its
parent. -/
def heapOrd (l : List α) (n : Nat) : Prop :=
  ∀ i, 2 ≤ i → i ≤ n → ¬ val l i < val l (i / 2)

inductive HOp (α : Type) where
  | ins (x : α)
  | del (i : Nat)

def runHeap : BHeap α → List (HOp α) → BHeap α
  | h, [] => h
  | h, HOp.ins x :: rest => runHeap (insertH h x) rest
  | h, HOp.del i :: rest => runHeap (removeH h i) rest

/-- Well-formed operation sequences: every `remove` targets a resident
position (`1 ≤ i ≤ size`), as the C++ asserts
(`assert(node->in_heap == this)`, `assert(m_size > 0)`). -/
def wfOps : BHeap α → List (HOp α) → Bool
  | _, [] => true
  | h, HOp.ins x :: rest => wfOps (insertH h x) rest
  | h, HOp.del i :: rest =>
    decide (1 ≤ i) && decide (i ≤ h.size) && wfOps (removeH h i) rest

/-! ### Position/value lemmas for the array heap -/

theorem length_setVal (l : List α) (i : Nat) (x : α) :
    (setVal l i x).length = l.length := by simp [setVal]

theorem length_swapVal (l : List α) (i j : Nat) :
    (swapVal l i j).length = l.length := by simp [swapVal, setVal]

theorem val_setVal_self {l : List α} {i : Nat} (h1 : 1 ≤ i)
    (h2 : i ≤ l.length) (x : α) : val (setVal l i x) i = x := by
  unfold val setVal
  rw [List.getD_eq_getElem?_getD, List.getElem?_set_self]
  · rfl
  · omega

theorem val_setVal_ne {l : List α} {i j : Nat} (hi1 : 1 ≤ i) (hj1 : 1 ≤ j)
    (hne : i ≠ j) (x : α) : val (setVal l i x) j = val l j := by
  unfold val setVal
  rw [List.getD_eq_getElem?_getD, List.getElem?_set_ne (by omega),
    ← List.getD_eq_getElem?_getD]

theorem val_swapVal_fst {l : List α} {i j : Nat} (hi1 : 1 ≤ i)
    (hil : i ≤ l.length) (hj1 : 1 ≤ j) (hjl : j ≤ l.length) :
    val (swapVal l i j) i = val l j := by
  unfold swapVal
  by_cases hij : i = j
  · subst hij
    exact val_setVal_self hi1 (by rw [length_setVal]; exact hil) _
  · rw [val_setVal_ne hj1 hi1 (fun h => hij h.symm), val_setVal_self hi1 hil]

theorem val_swapVal_snd {l : List α} {i j : Nat} (hj1 : 1 ≤ j)
    (hjl : j ≤ l.length) :
    val (swapVal l i j) j = val l i := by
  unfold swapVal
  exact val_setVal_self hj1 (by rw [length_setVal]; exact hjl) _

theorem val_swapVal_other {l : List α} {i j k : Nat} (hi1 : 1 ≤ i)
    (hj1 : 1 ≤ j) (hk1 : 1 ≤ k) (hki : k ≠ i) (hkj : k ≠ j) :
    val (swapVal l i j) k = val l k := by
  unfold swapVal
  rw [val_setVal_ne hj1 hk1 (fun h => hkj h.symm),
    val_setVal_ne hi1 hk1 (fun h => hki h.symm)]

/-! ### Correctness of sift_up -/

/-- If the array is a heap everywhere except possibly at the pair
`(j, j/2)`, and the children of `j` already compare at least the parent
of `j`, then `sift_up` from `j` restores the heap property. -/
theorem sift_upAux_spec :
    ∀ (fuel : Nat) (l : List α) (j n : Nat),
      l.length = n → 1 ≤ j → j ≤ n → j ≤ fuel →
      (∀ i, 2 ≤ i → i ≤ n → i ≠ j → ¬ val l i < val l (i / 2)) →
      (∀ i, 2 ≤ i → i ≤ n → i / 2 = j → 2 ≤ j → ¬ val l i < val l (j / 2)) →
      (sift_upAux fuel l j).1.length = n ∧ heapOrd (sift_upAux fuel l j).1 n := by
  intro fuel
  induction fuel with
  | zero =>
    intro l j n _ h1 _ hf _ _
    omega
  | succ fuel ih =>
    intro l j n hlen h1 hjn hf inv1 inv2
    by_cases hc : 1 < j ∧ val l j < val l (j / 2)
    · -- the node is smaller than its parent: swap them and continue
      obtain ⟨hj2, hlt⟩ := hc
      simp only [sift_upAux]
      rw [if_pos ⟨hj2, hlt⟩]
      set p := j / 2 with hp
      have hp1 : 1 ≤ p := by omega
      have hpj : p < j := by omega
      have hppn : p ≤ n := by omega
      have hjl : j ≤ l.length := by omega
      have hpl : p ≤ l.length := by omega
      have hvj : val (swapVal l j p) j = val l p := val_swapVal_fst h1 hjl hp1 hpl
      have hvp : val (swapVal l j p) p = val l j := val_swapVal_snd hp1 hpl
      apply ih (swapVal l j p) p n (by rw [length_swapVal]; exact hlen)
        hp1 hppn (by omega)
      · -- all pairs except (p, p/2) hold after the swap
        intro i hi2 hin hip
        by_cases hij : i = j
        · -- the pair (j, p) itself: the swap reordered it
          subst hij
          rw [hvj, ← hp, hvp]
          exact lt_asymm hlt
        · have hvi : val (swapVal l j p) i = val l i :=
            val_swapVal_other h1 hp1 (by omega) hij hip
          by_cases hij2 : i / 2 = j
          · -- a child of j: it was at least j's parent p
            rw [hvi, hij2, hvj]
            exact inv2 i hi2 hin hij2 hj2
          · by_cases hip2 : i / 2 = p
            · -- the sibling of j under p: it was at least p > j
              rw [hvi, hip2, hvp]
              have hge : ¬ val l i < val l p := by
                have := inv1 i hi2 hin hij
                rwa [hip2] at this
              rw [not_lt] at hge ⊢
              exact le_of_lt (lt_of_lt_of_le hlt hge)
            · -- untouched pair
              rw [hvi, val_swapVal_other h1 hp1 (by omega) hij2 hip2]
              exact inv1 i hi2 hin hij
      · -- the children of p (j and its sibling) are at least p's parent
        intro i hi2 hin hi2p hp2
        have hpp : p / 2 ≠ j := by omega
        have hppp : p / 2 ≠ p := by omega
        have hvpp : val (swapVal l j p) (p / 2) = val l (p / 2) :=
          val_swapVal_other h1 hp1 (by omega) hpp hppp
        have hple : ¬ val l p < val l (p / 2) :=
          inv1 p (by omega) hppn (by omega)
        by_cases hij : i = j
        · subst hij
          rw [hvj, hvpp]
          exact hple
        · have hvi : val (swapVal l j p) i = val l i :=
            val_swapVal_other h1 hp1 (by omega) hij (by omega)
          rw [hvi, hvpp]
          have hsp : ¬ val l i < val l p := by
            have := inv1 i hi2 hin hij
            rwa [hi2p] at this
          rw [not_lt] at hsp hple ⊢
          exact le_trans hple hsp
    · -- the node is not smaller than its parent: the heap is restored
      simp only [sift_upAux]
      rw [if_neg hc]
      refine ⟨hlen, ?_⟩
      intro i hi2 hin
      by_cases hij : i = j
      · subst hij
        rcases not_and_or.mp hc with h | h
        · omega
        · exact h
      · exact inv1 i hi2 hin hij

/-! ### Correctness of sift_down -/

/-- If the array is a heap on every pair not involving position `j`, and
the children of `j` are at least the parent of `j`, then `sift_down`
from `j` makes every pair except `(j', j'/2)` a heap pair, where `j'` is
the returned final position, and leaves the hole property at `j'` — the
precondition of `sift_up`, which the C++ `remove` runs next. -/
theorem sift_downAux_spec :
    ∀ (fuel : Nat) (l : List α) (j n : Nat),
      l.length = n → 1 ≤ j → j ≤ n → n + 1 - j ≤ fuel →
      (∀ i, 2 ≤ i → i ≤ n → i ≠ j → i / 2 ≠ j → ¬ val l i < val l (i / 2)) →
      (∀ i, 2 ≤ i → i ≤ n → i / 2 = j → 2 ≤ j → ¬ val l i < val l (j / 2)) →
      (sift_downAux fuel l j n).1.length = n ∧
        1 ≤ (sift_downAux fuel l j n).2 ∧ (sift_downAux fuel l j n).2 ≤ n ∧
        (∀ i, 2 ≤ i → i ≤ n → i ≠ (sift_downAux fuel l j n).2 →
          ¬ val (sift_downAux fuel l j n).1 i <
            val (sift_downAux fuel l j n).1 (i / 2)) ∧
        (∀ i, 2 ≤ i → i ≤ n → i / 2 = (sift_downAux fuel l j n).2 →
          2 ≤ (sift_downAux fuel l j n).2 →
          ¬ val (sift_downAux fuel l j n).1 i <
            val (sift_downAux fuel l j n).1 ((sift_downAux fuel l j n).2 / 2)) := by
  intro fuel
  induction fuel with
  | zero =>
    intro l j n _ h1 hjn hf _ _
    omega
  | succ fuel ih =>
    intro l j n hlen h1 hjn hf A0 B0
    simp only [sift_downAux]
    set m1 := if 2 * j ≤ n ∧ val l (2 * j) < val l j then 2 * j else j with hm1
    set m2 := if 2 * j + 1 ≤ n ∧ val l (2 * j + 1) < val l m1 then 2 * j + 1
      else m1 with hm2
    by_cases hstop : m2 = j
    · -- no child is smaller: the hole is already a heap position
      rw [if_pos hstop]
      refine ⟨hlen, h1, hjn, ?_, ?_⟩
      · -- every pair except (j, j/2) is fine, including j's children now
        intro i hi2 hin hij
        by_cases hij2 : i / 2 = j
        · -- a child of j: m2 = j means neither child was smaller
          have hc1 : ¬ (2 * j ≤ n ∧ val l (2 * j) < val l j) := by
            intro c1
            have e1 : m1 = 2 * j := by rw [hm1, if_pos c1]
            by_cases c2 : 2 * j + 1 ≤ n ∧ val l (2 * j + 1) < val l m1
            · have e2 : m2 = 2 * j + 1 := by rw [hm2, if_pos c2]
              omega
            · have e2 : m2 = m1 := by rw [hm2, if_neg c2]
              omega
          have e1 : m1 = j := by rw [hm1, if_neg hc1]
          have hc2 : ¬ (2 * j + 1 ≤ n ∧ val l (2 * j + 1) < val l j) := by
            intro c2
            have c2' : 2 * j + 1 ≤ n ∧ val l (2 * j + 1) < val l m1 := by
              rw [e1]
              exact c2
            have e2 : m2 = 2 * j + 1 := by rw [hm2, if_pos c2']
            omega
          have hcase : i = 2 * j ∨ i = 2 * j + 1 := by omega
          rw [hij2]
          rcases hcase with h | h <;> subst h
          · intro hlt
            exact hc1 ⟨hin, hlt⟩
          · intro hlt
            exact hc2 ⟨hin, hlt⟩
        · exact A0 i hi2 hin hij hij2
      · intro i hi2 hin hi2j hj2
        exact B0 i hi2 hin hi2j hj2
    · -- the smaller child m2 moves up; recurse from m2
      rw [if_neg hstop]
      have key : m2 ≤ n ∧ val l m2 < val l j ∧ (m2 = 2 * j ∨ m2 = 2 * j + 1) ∧
          (∀ c, (c = 2 * j ∨ c = 2 * j + 1) → c ≤ n → ¬ val l c < val l m2) := by
        by_cases c1 : 2 * j ≤ n ∧ val l (2 * j) < val l j
        · have e1 : m1 = 2 * j := by rw [hm1, if_pos c1]
          by_cases c2 : 2 * j + 1 ≤ n ∧ val l (2 * j + 1) < val l m1
          · have e2 : m2 = 2 * j + 1 := by rw [hm2, if_pos c2]
            rw [e1] at c2
            refine ⟨by omega, by rw [e2]; exact lt_trans c2.2 c1.2,
              Or.inr e2, ?_⟩
            intro c hc hcn
            rcases hc with h | h <;> subst h
            · rw [e2]
              exact lt_asymm c2.2
            · rw [e2]
              exact lt_irrefl _
          · have e2 : m2 = 2 * j := by rw [hm2, if_neg c2, e1]
            rw [e1] at c2
            refine ⟨by omega, by rw [e2]; exact c1.2, Or.inl e2, ?_⟩
            intro c hc hcn
            rcases hc with h | h <;> subst h
            · rw [e2]
              exact lt_irrefl _
            · rw [e2]
              intro hlt
              exact c2 ⟨hcn, hlt⟩
        · have e1 : m1 = j := by rw [hm1, if_neg c1]
          by_cases c2 : 2 * j + 1 ≤ n ∧ val l (2 * j + 1) < val l m1
          · have e2 : m2 = 2 * j + 1 := by rw [hm2, if_pos c2]
            rw [e1] at c2
            refine ⟨by omega, by rw [e2]; exact c2.2, Or.inr e2, ?_⟩
            intro c hc hcn
            rcases hc with h | h <;> subst h
            · rw [e2]
              intro hlt
              exact c1 ⟨hcn, lt_trans hlt c2.2⟩
            · rw [e2]
              exact lt_irrefl _
          · exfalso
            apply hstop
            rw [hm2, if_neg c2, e1]
      obtain ⟨hm2n, hm2lt, hm2c, hmin⟩ := key
      have hjm2 : j < m2 := by omega
      have hm2_1 : 1 ≤ m2 := by omega
      apply ih (swapVal l j m2) m2 n (by rw [length_swapVal]; exact hlen)
        hm2_1 hm2n (by omega)
      · -- pairs not involving the new hole m2 are fine after the swap
        intro i hi2 hin hiM hi2M
        by_cases hij : i = j
        · -- the pair (j, j/2): j now holds the old child value m2
          have hj2 : 2 ≤ j := hij ▸ hi2
          have hj21 : 1 ≤ j / 2 := by omega
          rw [hij, val_swapVal_fst h1 (by omega) hm2_1 (by omega),
            val_swapVal_other h1 hm2_1 hj21 (by omega) (by omega)]
          exact B0 m2 (by omega) hm2n (by omega) hj2
        · by_cases hij2 : i / 2 = j
          · -- the sibling child of m2 under j: it was at least m2
            rw [val_swapVal_other h1 hm2_1 (by omega) hij hiM, hij2,
              val_swapVal_fst h1 (by omega) hm2_1 (by omega)]
            exact hmin i (by omega) hin
          · -- untouched pair
            rw [val_swapVal_other h1 hm2_1 (by omega) hij hiM,
              val_swapVal_other h1 hm2_1 (by omega) hij2 hi2M]
            exact A0 i hi2 hin hij hij2
      · -- children of m2 are at least its parent j (which now holds m2's value)
        intro i hi2 hin hi2m2 _
        have hm2half : m2 / 2 = j := by omega
        rw [hm2half, val_swapVal_fst h1 (by omega) hm2_1 (by omega),
          val_swapVal_other h1 hm2_1 (by omega) (by omega) (by omega)]
        have := A0 i hi2 hin (by omega) (by omega)
        rwa [hi2m2] at this

/-! ### insert and remove preserve the heap order -/

theorem val_append_of_le {l : List α} {x : α} {i : Nat} (h1 : 1 ≤ i)
    (h2 : i ≤ l.length) : val (l ++ [x]) i = val l i := by
  unfold val
  rw [List.getD_eq_getElem?_getD, List.getElem?_append_left (by omega),
    ← List.getD_eq_getElem?_getD]

theorem val_dropLast {l : List α} {k : Nat} (h1 : 1 ≤ k)
    (h2 : k ≤ l.length - 1) : val l.dropLast k = val l k := by
  unfold val
  rw [List.getD_eq_getElem?_getD, List.getElem?_eq_getElem (by simp; omega),
    List.getElem_dropLast, ← List.getElem?_eq_getElem, ← List.getD_eq_getElem?_getD]

/-- `BinHeap::insert` appends at the first free position of the bottom
row and sifts up, preserving the heap order. -/
theorem heapOrd_insertH {h : BHeap α} (hlen : h.elems.length = h.size)
    (hord : heapOrd h.elems h.size) (x : α) :
    (insertH h x).elems.length = (insertH h x).size ∧
      heapOrd (insertH h x).elems (insertH h x).size := by
  have inv1 : ∀ i, 2 ≤ i → i ≤ h.size + 1 → i ≠ h.size + 1 →
      ¬ val (h.elems ++ [x]) i < val (h.elems ++ [x]) (i / 2) := by
    intro i hi2 hin hine
    rw [val_append_of_le (by omega) (by omega),
      val_append_of_le (by omega) (by omega)]
    exact hord i hi2 (by omega)
  have inv2 : ∀ i, 2 ≤ i → i ≤ h.size + 1 → i / 2 = h.size + 1 →
      2 ≤ h.size + 1 →
      ¬ val (h.elems ++ [x]) i < val (h.elems ++ [x]) ((h.size + 1) / 2) := by
    intro i hi2 hin hieq _
    omega
  have hsp := sift_upAux_spec (h.size + 1) (h.elems ++ [x]) (h.size + 1)
    (h.size + 1) (by simp [hlen]) (by omega) le_rfl le_rfl inv1 inv2
  simp only [insertH, sift_up]
  exact ⟨hsp.1, hsp.2⟩

/-- `BinHeap::remove` swaps the target with the terminal node, deletes
the terminal position, then sift_down followed by sift_up restores the
heap order (this covers removing interior nodes, where the moved
terminal value may need to go either way). -/
theorem heapOrd_removeH {h : BHeap α} (hlen : h.elems.length = h.size)
    (hord : heapOrd h.elems h.size) {i : Nat} (h1 : 1 ≤ i) (hin : i ≤ h.size) :
    (removeH h i).elems.length = (removeH h i).size ∧
      heapOrd (removeH h i).elems (removeH h i).size := by
  by_cases hlast : i = h.size
  · simp only [removeH, if_pos hlast]
    refine ⟨by simp [hlen], ?_⟩
    intro k hk2 hkn
    rw [val_dropLast (by omega) (by rw [hlen]; omega),
      val_dropLast (by omega) (by rw [hlen]; omega)]
    exact hord k hk2 (by omega)
  · simp only [removeH, if_neg hlast]
    set l2 := (swapVal h.elems i h.size).dropLast with hl2
    have hilt : i < h.size := by omega
    have hlen2 : l2.length = h.size - 1 := by
      rw [hl2]
      simp [length_swapVal, hlen]
    have hvother : ∀ k, 1 ≤ k → k ≤ h.size - 1 → k ≠ i →
        val l2 k = val h.elems k := by
      intro k hk1 hkn hki
      rw [hl2, val_dropLast hk1 (by rw [length_swapVal, hlen]; omega),
        val_swapVal_other h1 (by omega) hk1 hki (by omega)]
    have A0 : ∀ k, 2 ≤ k → k ≤ h.size - 1 → k ≠ i → k / 2 ≠ i →
        ¬ val l2 k < val l2 (k / 2) := by
      intro k hk2 hkn hki hk2i
      rw [hvother k (by omega) hkn hki,
        hvother (k / 2) (by omega) (by omega) hk2i]
      exact hord k hk2 (by omega)
    have B0 : ∀ k, 2 ≤ k → k ≤ h.size - 1 → k / 2 = i → 2 ≤ i →
        ¬ val l2 k < val l2 (i / 2) := by
      intro k hk2 hkn hk2i hi2
      rw [hvother k (by omega) hkn (by omega),
        hvother (i / 2) (by omega) (by omega) (by omega)]
      have ha := hord k hk2 (by omega)
      rw [hk2i] at ha
      have hb := hord i hi2 (by omega)
      rw [not_lt] at ha hb ⊢
      exact le_trans hb ha
    obtain ⟨hdlen, hd1, hdn, hdA, hdB⟩ :=
      sift_downAux_spec (h.size - 1) l2 i (h.size - 1) hlen2 h1 (by omega)
        (by omega) A0 B0
    have hu := sift_upAux_spec (sift_downAux (h.size - 1) l2 i (h.size - 1)).2
      (sift_downAux (h.size - 1) l2 i (h.size - 1)).1
      (sift_downAux (h.size - 1) l2 i (h.size - 1)).2
      (h.size - 1) hdlen hd1 hdn le_rfl hdA hdB
    simp only [sift_down, sift_up]
    exact ⟨hu.1, hu.2⟩

/-- Any well-formed operation sequence keeps the length bookkeeping and
the heap order. -/
theorem runHeap_sound :
    ∀ (ops : List (HOp α)) (h : BHeap α),
      h.elems.length = h.size → heapOrd h.elems h.size → wfOps h ops = true →
      (runHeap h ops).elems.length = (runHeap h ops).size ∧
        heapOrd (runHeap h ops).elems (runHeap h ops).size := by
  intro ops
  induction ops with
  | nil =>
    intro h hl ho _
    exact ⟨hl, ho⟩
  | cons op rest ih =>
    intro h hl ho hwf
    cases op with
    | ins x =>
      simp only [runHeap]
      have hstep := heapOrd_insertH hl ho x
      exact ih _ hstep.1 hstep.2 (by simpa [wfOps] using hwf)
    | del i =>
      simp only [runHeap]
      simp only [wfOps, Bool.and_eq_true, decide_eq_true_eq] at hwf
      obtain ⟨⟨hw1, hw2⟩, hrest⟩ := hwf
      have hstep := heapOrd_removeH hl ho hw1 hw2
      exact ih _ hstep.1 hstep.2 hrest

/-! ### The structural conjuncts of _validate on the index tree

`_validate` recursively computes `count` and `depth` of the pointer
tree and checks `leftcount >= rightcount`; `validate` then checks
`count == m_size` and `depth < 64`. On the implicit index tree of
`find_index` (node `i` has children `2i` and `2i+1`, the occupied
indices are exactly `1..m_size`), these quantities are `subtreeCount`
and `treeDepth`. -/

theorem subtreeCount_pos (n i : Nat) (h : 1 ≤ i ∧ i ≤ n) :
    subtreeCount n i = 1 + subtreeCount n (2 * i) + subtreeCount n (2 * i + 1) := by
  rw [subtreeCount]
  exact dif_pos h

theorem subtreeCount_zero (n i : Nat) (h : ¬ (1 ≤ i ∧ i ≤ n)) :
    subtreeCount n i = 0 := by
  rw [subtreeCount]
  exact dif_neg h

theorem treeDepth_pos (n i : Nat) (h : 1 ≤ i ∧ i ≤ n) :
    treeDepth n i = 1 + max (treeDepth n (2 * i)) (treeDepth n (2 * i + 1)) := by
  rw [treeDepth]
  exact dif_pos h

theorem treeDepth_zero (n i : Nat) (h : ¬ (1 ≤ i ∧ i ≤ n)) :
    treeDepth n i = 0 := by
  rw [treeDepth]
  exact dif_neg h

/-- `i` is an ancestor-or-self of `k` in the index tree (repeated
halving of `k` reaches `i`). -/
def ancestor (i k : Nat) : Bool :=
  if k = 0 then false
  else if k = i then true
  else if k < i then false
  else ancestor i (k / 2)
termination_by k
decreasing_by omega

theorem ancestor_gt {i k : Nat} (h : k < i) : ancestor i k = false := by
  rw [ancestor]
  rcases Nat.eq_zero_or_pos k with h0 | h0
  · simp [h0]
  · rw [if_neg (by omega), if_neg (by omega), if_pos h]

theorem ancestor_self {i : Nat} (h : 1 ≤ i) : ancestor i i = true := by
  rw [ancestor]
  rw [if_neg (by omega), if_pos rfl]

theorem ancestor_step {i k : Nat} (h : i < k) :
    ancestor i k = ancestor i (k / 2) := by
  rw [ancestor]
  rw [if_neg (by omega), if_neg (by omega), if_neg (by omega)]

theorem ancestor_one : ∀ k, 1 ≤ k → ancestor 1 k = true := by
  intro k
  induction k using Nat.strong_induction_on with
  | _ k ih =>
    intro h1
    rcases Nat.lt_or_ge 1 k with hk | hk
    · rw [ancestor_step hk]
      exact ih (k / 2) (by omega) (by omega)
    · have : k = 1 := by omega
      rw [this]
      exact ancestor_self le_rfl

/-- The ancestor indicator of `i` splits exactly between the two
children of `i` for any strictly deeper node. -/
theorem ancestor_split : ∀ k i, 1 ≤ i → i < k →
    (if ancestor i k then 1 else 0) =
      (if ancestor (2 * i) k then 1 else 0) +
        (if ancestor (2 * i + 1) k then 1 else 0) := by
  intro k
  induction k using Nat.strong_induction_on with
  | _ k ih =>
    intro i h1 hik
    rcases Nat.lt_trichotomy (k / 2) i with hh | hh | hh
    · -- parent of k is above i was never reached: k's parent is shallower
      have hk2 : k / 2 < i := hh
      rw [ancestor_step hik, ancestor_gt (show k / 2 < i from hk2)]
      have hL : ancestor (2 * i) k = false := by
        rcases Nat.lt_trichotomy k (2 * i) with h | h | h
        · exact ancestor_gt h
        · omega
        · rw [ancestor_step h, ancestor_gt (by omega)]
      have hR : ancestor (2 * i + 1) k = false := by
        rcases Nat.lt_trichotomy k (2 * i + 1) with h | h | h
        · exact ancestor_gt h
        · omega
        · rw [ancestor_step h, ancestor_gt (by omega)]
      rw [hL, hR]
      simp
    · -- k is a child of i
      have hk : k = 2 * i ∨ k = 2 * i + 1 := by omega
      rw [ancestor_step hik, hh, ancestor_self h1]
      rcases hk with h | h <;> subst h
      · rw [ancestor_self (by omega)]
        have : ancestor (2 * i + 1) (2 * i) = false := ancestor_gt (by omega)
        rw [this]
        simp
      · rw [ancestor_self (by omega)]
        have : ancestor (2 * i) (2 * i + 1) = false := by
          rw [ancestor_step (by omega), ancestor_gt (by omega)]
        rw [this]
        simp
    · -- k is strictly below both children: step all three indicators
      have hkL : 2 * i < k := by omega
      have hkR : 2 * i + 1 < k := by omega
      rw [ancestor_step hik, ancestor_step hkL, ancestor_step hkR]
      exact ih (k / 2) (by omega) i h1 hh

/-- Growing the heap by one position adds one to the subtree count of
exactly the ancestors of the new position. -/
theorem subtreeCount_succ_aux : ∀ m n i, 1 ≤ i → n + 2 - i ≤ m →
    subtreeCount (n + 1) i =
      subtreeCount n i + (if ancestor i (n + 1) then 1 else 0) := by
  intro m
  induction m with
  | zero =>
    intro n i h1 hm
    rw [subtreeCount_zero (n + 1) i (by omega), subtreeCount_zero n i (by omega),
      ancestor_gt (show n + 1 < i by omega)]
    simp
  | succ m ih =>
    intro n i h1 hm
    by_cases hile : i ≤ n + 1
    · by_cases hin : i ≤ n
      · rw [subtreeCount_pos (n + 1) i ⟨h1, hile⟩, subtreeCount_pos n i ⟨h1, hin⟩,
          ih n (2 * i) (by omega) (by omega), ih n (2 * i + 1) (by omega) (by omega),
          ancestor_split (n + 1) i h1 (by omega)]
        omega
      · have hieq : i = n + 1 := by omega
        subst hieq
        rw [subtreeCount_pos (n + 1) (n + 1) ⟨h1, le_rfl⟩,
          subtreeCount_zero (n + 1) (2 * (n + 1)) (by omega),
          subtreeCount_zero (n + 1) (2 * (n + 1) + 1) (by omega),
          subtreeCount_zero n (n + 1) (by omega), ancestor_self h1]
        simp
    · rw [subtreeCount_zero (n + 1) i (by omega), subtreeCount_zero n i (by omega),
        ancestor_gt (show n + 1 < i by omega)]
      simp

/-- The count computed at the root equals the number of occupied
positions — `_validate`'s `count == m_size` check, in the model. -/
theorem subtreeCount_complete : ∀ n, subtreeCount n 1 = n := by
  intro n
  induction n with
  | zero => exact subtreeCount_zero 0 1 (by omega)
  | succ n ih =>
    rw [subtreeCount_succ_aux (n + 2) n 1 le_rfl (by omega), ih,
      ancestor_one (n + 1) (by omega)]
    simp

/-- Subtree counts are antitone in the position index: the occupied
positions are the contiguous prefix `1..n`, so a later subtree never
holds more nodes. -/
theorem subtreeCount_antitone_aux : ∀ m n j, 1 ≤ j → n + 1 - j ≤ m →
    subtreeCount n (j + 1) ≤ subtreeCount n j := by
  intro m
  induction m with
  | zero =>
    intro n j h1 hm
    rw [subtreeCount_zero n (j + 1) (by omega), subtreeCount_zero n j (by omega)]
  | succ m ih =>
    intro n j h1 hm
    by_cases hj : j + 1 ≤ n
    · rw [subtreeCount_pos n (j + 1) ⟨by omega, hj⟩,
        subtreeCount_pos n j ⟨h1, by omega⟩]
      have e1 : 2 * (j + 1) = 2 * j + 1 + 1 := by ring
      have ha := ih n (2 * j) (by omega) (by omega)
      have hb := ih n (2 * j + 1) (by omega) (by omega)
      have hc := ih n (2 * j + 1 + 1) (by omega) (by omega)
      rw [e1]
      omega
    · rw [subtreeCount_zero n (j + 1) (by omega)]
      exact Nat.zero_le _

/-- `_validate`'s `leftcount >= rightcount` check, in the model. -/
theorem subtreeCount_left_ge_right (n i : Nat) (h1 : 1 ≤ i) :
    subtreeCount n (2 * i + 1) ≤ subtreeCount n (2 * i) := by
  have := subtreeCount_antitone_aux (n + 1) n (2 * i) (by omega) (by omega)
  simpa using this

/-- If the subtree root index already overshoots at depth `d`, the tree
below it is at most `d` deep. -/
theorem treeDepth_le : ∀ d n i, n < i * 2 ^ d → treeDepth n i ≤ d := by
  intro d
  induction d with
  | zero =>
    intro n i hlt
    rw [treeDepth_zero n i (by simp at hlt; omega)]
  | succ d ih =>
    intro n i hlt
    by_cases hc : 1 ≤ i ∧ i ≤ n
    · rw [treeDepth_pos n i hc]
      have e : i * 2 ^ (d + 1) = 2 * i * 2 ^ d := by ring
      have hL : n < 2 * i * 2 ^ d := by omega
      have hR : n < (2 * i + 1) * 2 ^ d :=
        lt_of_lt_of_le hL (Nat.mul_le_mul_right _ (by omega))
      have := Nat.max_le.mpr ⟨ih n (2 * i) hL, ih n (2 * i + 1) hR⟩
      omega
    · rw [treeDepth_zero n i hc]
      exact Nat.zero_le _

/-- If the leftmost descendant at depth `d` is occupied, the tree is at
least `d + 1` deep. -/
theorem treeDepth_ge : ∀ d n i, 1 ≤ i → i * 2 ^ d ≤ n → d + 1 ≤ treeDepth n i := by
  intro d
  induction d with
  | zero =>
    intro n i h1 hle
    simp at hle
    rw [treeDepth_pos n i ⟨h1, hle⟩]
    omega
  | succ d ih =>
    intro n i h1 hle
    have hi_n : i ≤ n := by
      have h2 : 1 ≤ 2 ^ (d + 1) := Nat.one_le_two_pow
      have := Nat.le_mul_of_pos_right i (show 0 < 2 ^ (d + 1) by omega)
      omega
    rw [treeDepth_pos n i ⟨h1, hi_n⟩]
    have e : i * 2 ^ (d + 1) = 2 * i * 2 ^ d := by ring
    have hrec := ih n (2 * i) (by omega) (by omega)
    have := le_max_left (treeDepth n (2 * i)) (treeDepth n (2 * i + 1))
    omega

/-- The validation predicate of `BinHeap::validate`/`_validate` on the
array model: consistent bookkeeping, heap order at every parent-child
pair, root count equal to the size, left subtree counts at least right
subtree counts, and — for sizes below `2^63` — depth below 64. -/
def validHeap (h : BHeap α) : Prop :=
  h.elems.length = h.size ∧
  heapOrd h.elems h.size ∧
  subtreeCount h.size 1 = h.size ∧
  (∀ i, 1 ≤ i → i ≤ h.size →
    subtreeCount h.size (2 * i + 1) ≤ subtreeCount h.size (2 * i)) ∧
  (h.size < 2 ^ 63 → treeDepth h.size 1 < 64)

theorem wfOps_ins_replicate : ∀ (k : Nat) (h : BHeap α) (x : α),
    wfOps h (List.replicate k (HOp.ins x)) = true := by
  intro k
  induction k with
  | zero =>
    intro h x
    rfl
  | succ k ih =>
    intro h x
    rw [List.replicate_succ]
    simp only [wfOps]
    exact ih _ x

theorem size_runHeap_ins_replicate : ∀ (k : Nat) (h : BHeap α) (x : α),
    (runHeap h (List.replicate k (HOp.ins x))).size = h.size + k := by
  intro k
  induction k with
  | zero =>
    intro h x
    rfl
  | succ k ih =>
    intro h x
    rw [List.replicate_succ]
    simp only [runHeap]
    rw [ih]
    simp only [insertH]
    omega

/-- C10 counterexample to the unconditional `depth < 64` clause: the
well-formed sequence of `2^63` inserts yields a reachable heap whose
computed depth is exactly 64, so `validate`'s
`SANITY_CHECK(depth < 64)` fails on it. -/
theorem binheap_depth64_cex :
    wfOps (⟨[], 0⟩ : BHeap Nat) (List.replicate (2 ^ 63) (HOp.ins 0)) = true ∧
      ¬ treeDepth (runHeap (⟨[], 0⟩ : BHeap Nat)
          (List.replicate (2 ^ 63) (HOp.ins 0))).size 1 < 64 := by
  refine ⟨wfOps_ins_replicate _ _ _, ?_⟩
  have hsz : (runHeap (⟨[], 0⟩ : BHeap Nat)
      (List.replicate (2 ^ 63) (HOp.ins 0))).size = 2 ^ 63 := by
    rw [size_runHeap_ins_replicate]
    simp
  rw [hsz]
  have := treeDepth_ge 63 (2 ^ 63) 1 le_rfl (by simp)
  omega

/-- C10: for every well-formed sequence of `BinHeap::insert` and
`BinHeap::remove` operations on an initially empty heap (each remove
targeting a resident position, interior positions included), the heap
after every operation satisfies the `validate` predicate: heap order at
every parent-child pair, recursive node count equal to the recorded
size, left subtree count at least the right subtree count at every
resident node, and — as amended, for sizes below `2^63` — depth
below 64. -/
theorem binheap_validation (ops : List (HOp α))
    (hwf : wfOps (⟨[], 0⟩ : BHeap α) ops = true) :
    validHeap (runHeap (⟨[], 0⟩ : BHeap α) ops) := by
  have hord0 : heapOrd ([] : List α) 0 :=
    fun i hi2 hin => absurd hin (by omega)
  have hs := runHeap_sound ops ⟨[], 0⟩ rfl hord0 hwf
  refine ⟨hs.1, hs.2, subtreeCount_complete _, ?_, ?_⟩
  · intro i hi1 _
    exact subtreeCount_left_ge_right _ i hi1
  · intro hlt
    have hle := treeDepth_le 63 (runHeap (⟨[], 0⟩ : BHeap α) ops).size 1
      (by simpa using hlt)
    omega

theorem binheap_validation_witness :
    validHeap (runHeap (⟨[], 0⟩ : BHeap Nat)
      [HOp.ins 30, HOp.ins 40, HOp.ins 20, HOp.ins 10,
        HOp.del 3, HOp.del 1]) :=
  binheap_validation _ (by decide)

end Minetest
